import Mathlib

/-!
Verification of the Solar-Panel-Pallet-Manager serial store core.

This file gives a shallow embedding, in Lean 4, of the serial-number
store of the repository (`app/serial_database.py`, `app/import_sunsim.py`,
`app/path_utils.py`) and proves or refutes the specification claims about
it.  Strings are modelled as `List Char` (the ASCII fragment of Python
strings); spreadsheet tables as lists of row structures; Python dicts as
insertion-ordered association lists; wall-clock time and file modification
times as natural numbers; fallible file reads as an explicit outcome type.
-/

set_option maxHeartbeats 1000000
set_option synthInstance.maxHeartbeats 400000

namespace SolarPallet

/-! ## Python string primitives (ASCII fragment)

`isPySpace` models the default whitespace set of `str.strip` (the ASCII
whitespace characters); `Char.toUpper` from core is exactly Python's
`str.upper` on ASCII letters, and is used directly. -/

def isPySpace (c : Char) : Bool :=
  decide (c.toNat = 32 ∨ c.toNat = 9 ∨ c.toNat = 10 ∨ c.toNat = 13 ∨
    c.toNat = 11 ∨ c.toNat = 12)

def lstrip (l : List Char) : List Char := l.dropWhile isPySpace

def rstrip (l : List Char) : List Char := (l.reverse.dropWhile isPySpace).reverse

/-- Python `str.strip()` with no arguments. -/
def pyStrip (l : List Char) : List Char := rstrip (lstrip l)

/-- Python `str.upper()` restricted to ASCII letters. -/
def pyUpper (l : List Char) : List Char := l.map Char.toUpper

def isAsciiDigit (c : Char) : Bool := '0' ≤ c && c ≤ '9'

def isAsciiLetter (c : Char) : Bool := ('a' ≤ c && c ≤ 'z') || ('A' ≤ c && c ≤ 'Z')

/-! ## The trailing cell-reference pattern

`re.sub(r'\([a-z]\d+\)$', '', s, flags=re.IGNORECASE)` removes, from the
end of the string, one group of the form open-paren, ASCII letter, one or
more ASCII digits, close-paren.  Because the pattern is anchored at the
end and none of its elements can match a parenthesis, the (unique,
end-anchored) match is recognised by scanning from the end of the string;
`refMatchRev` does this on the reversed character list and returns the
reversed remainder on success. -/

def refMatchRev (r : List Char) : Option (List Char) :=
  match r with
  | ')' :: rest =>
    let ds := rest.takeWhile isAsciiDigit
    if ds = [] then none
    else
      match rest.dropWhile isAsciiDigit with
      | l :: '(' :: rest2 => if isAsciiLetter l then some rest2 else none
      | _ => none
  | _ => none

/-- One application of the end-anchored `re.sub` of `normalize_serial`. -/
def stripRef (l : List Char) : List Char :=
  match refMatchRev l.reverse with
  | some r => r.reverse
  | none => l

def hasRefSuffix (l : List Char) : Bool := (refMatchRev l.reverse).isSome

/-! ## The ".0" collapse

`normalize_serial` removes a trailing `".0"` when the whole string parses
as a `float` equal to its integer truncation.  Strings ending in `".0"`
that CPython's `float()` accepts are exactly an optional sign followed by
a possibly-empty digit group (with underscores allowed only between
digits) followed by `".0"`; the replacement is `str(int(float(s)))`.
The model computes the exact integer value; CPython rounds the value
through binary floating point first, so for integer parts above 2^53 the
two disagree on the digits produced — both, however, produce a plain
(possibly signed) digit string, which is all the claims below rely on. -/

def noBadUnderscore : List Char → Bool
  | [] => true
  | ['_'] => false
  | '_' :: '_' :: _ => false
  | '_' :: c :: rest => noBadUnderscore (c :: rest)
  | _ :: rest => noBadUnderscore rest

def intPartOk (l : List Char) : Bool :=
  l.all (fun c => isAsciiDigit c || c = '_') && l.head? ≠ some '_' && noBadUnderscore l

def digitsVal (l : List Char) : Nat :=
  l.foldl (fun a c => a * 10 + (c.toNat - 48)) 0

def signedIntPart (l : List Char) : Option Int :=
  match l with
  | '+' :: rest =>
    if intPartOk rest then some ((digitsVal (rest.filter isAsciiDigit) : Nat) : Int) else none
  | '-' :: rest =>
    if intPartOk rest then some (-((digitsVal (rest.filter isAsciiDigit) : Nat) : Int)) else none
  | rest =>
    if intPartOk rest then some ((digitsVal (rest.filter isAsciiDigit) : Nat) : Int) else none

def endsWithDotZero (l : List Char) : Bool :=
  match l.reverse with
  | '0' :: '.' :: _ => true
  | _ => false

def dotZeroBody (l : List Char) : List Char := l.dropLast.dropLast

/-- Whether the `.0`-collapse branch of `normalize_serial` fires on `l`. -/
def dotZeroApplicable (l : List Char) : Bool :=
  decide (2 < l.length) && endsWithDotZero l && (signedIntPart (dotZeroBody l)).isSome

/-- The `.0`-collapse step of `normalize_serial`. -/
def dotZero (l : List Char) : List Char :=
  if 2 < l.length ∧ endsWithDotZero l = true then
    match signedIntPart (dotZeroBody l) with
    | some n => (toString n).data
    | none => l
  else l

/-! ## `normalize_serial` (serial_database.py, lines 24-65) -/

/-- String-level body of `normalize_serial`: strip, drop one trailing
cell-reference group, collapse a numeric `".0"` suffix, strip and
upper-case. -/
def normalizeL (l : List Char) : List Char :=
  if pyStrip l = [] then []
  else pyUpper (pyStrip (dotZero (stripRef (pyStrip l))))

/-- A value passed to `normalize_serial`: `None`, an int, a float with
integral value (whose `str()` renders with a trailing `".0"`), or a
string. -/
inductive PyVal where
  | none
  | intv (n : Int)
  | floatv (n : Int)
  | strv (s : List Char)
deriving DecidableEq

def pyValStr : PyVal → List Char
  | .none => []
  | .intv n => (toString n).data
  | .floatv n => (toString n).data ++ ['.', '0']
  | .strv s => s

/-- `normalize_serial` itself. -/
def normalize_serial : PyVal → List Char
  | .none => []
  | v => normalizeL (pyValStr v)

/-! ## Character-level lemmas -/

theorem char_toNat_ofNat_valid {n : Nat} (h : n < 55296) : (Char.ofNat n).toNat = n := by
  rw [Char.ofNat, dif_pos (Or.inl h)]
  rfl

theorem toUpper_eq_self {c : Char} (h : ¬(97 ≤ c.toNat ∧ c.toNat ≤ 122)) :
    Char.toUpper c = c := by
  simp only [Char.toUpper]
  rw [if_neg h]

theorem toNat_toUpper (c : Char) :
    (Char.toUpper c).toNat =
      if 97 ≤ c.toNat ∧ c.toNat ≤ 122 then c.toNat - 32 else c.toNat := by
  by_cases hc : 97 ≤ c.toNat ∧ c.toNat ≤ 122
  · rw [if_pos hc]
    simp only [Char.toUpper]
    rw [if_pos hc]
    exact char_toNat_ofNat_valid (by omega)
  · rw [if_neg hc, toUpper_eq_self hc]

theorem toUpper_toUpper (c : Char) : Char.toUpper (Char.toUpper c) = Char.toUpper c := by
  by_cases hc : 97 ≤ c.toNat ∧ c.toNat ≤ 122
  · have h1 : (Char.toUpper c).toNat = c.toNat - 32 := by
      rw [toNat_toUpper, if_pos hc]
    exact toUpper_eq_self (by omega)
  · rw [toUpper_eq_self hc]
    exact toUpper_eq_self hc

theorem isPySpace_toUpper (c : Char) : isPySpace (Char.toUpper c) = isPySpace c := by
  have h := toNat_toUpper c
  by_cases hc : 97 ≤ c.toNat ∧ c.toNat ≤ 122
  · rw [if_pos hc] at h
    simp only [isPySpace, h, decide_eq_decide]
    omega
  · rw [if_neg hc] at h
    simp only [isPySpace, h]

/-! ## Strip lemmas -/

theorem dropWhile_idem {α : Type} (p : α → Bool) (l : List α) :
    (l.dropWhile p).dropWhile p = l.dropWhile p := by
  induction l with
  | nil => rfl
  | cons a t ih =>
    by_cases h : p a
    · simp [List.dropWhile_cons, h, ih]
    · simp [List.dropWhile_cons, h]

theorem lstrip_lstrip (l : List Char) : lstrip (lstrip l) = lstrip l :=
  dropWhile_idem isPySpace l

theorem rstrip_rstrip (l : List Char) : rstrip (rstrip l) = rstrip l := by
  unfold rstrip
  rw [List.reverse_reverse, dropWhile_idem]

theorem rstrip_append_eq (l : List Char) :
    ∃ v, l = rstrip l ++ v := by
  refine ⟨(l.reverse.takeWhile isPySpace).reverse, ?_⟩
  unfold rstrip
  rw [← List.reverse_append, List.takeWhile_append_dropWhile, List.reverse_reverse]

theorem length_dropWhile_le {α : Type} (p : α → Bool) (l : List α) :
    (l.dropWhile p).length ≤ l.length := by
  induction l with
  | nil => exact Nat.le_refl _
  | cons a t ih =>
    by_cases h : p a
    · simp only [List.dropWhile_cons, h, if_true]
      exact Nat.le_trans ih (Nat.le_succ _)
    · simp only [List.dropWhile_cons, h, if_false]
      exact Nat.le_refl _

theorem lstrip_rstrip_of_lstrip_eq {y : List Char} (h : lstrip y = y) :
    lstrip (rstrip y) = rstrip y := by
  obtain ⟨v, hv⟩ := rstrip_append_eq y
  cases hr : rstrip y with
  | nil => rfl
  | cons a t =>
    rw [hr] at hv
    have ha : isPySpace a = false := by
      by_contra hcon
      have ha' : isPySpace a = true := by
        cases h' : isPySpace a
        · exact absurd h' hcon
        · rfl
      rw [hv] at h
      simp only [lstrip, List.cons_append, List.dropWhile_cons, ha', if_true] at h
      have hle := length_dropWhile_le isPySpace (t ++ v)
      rw [h] at hle
      simp at hle
    simp [lstrip, List.dropWhile_cons, ha]

theorem pyStrip_pyStrip (l : List Char) : pyStrip (pyStrip l) = pyStrip l := by
  unfold pyStrip
  rw [lstrip_rstrip_of_lstrip_eq (lstrip_lstrip l), rstrip_rstrip]

/-! ## Upper/strip commutation -/

theorem isPySpace_comp_toUpper :
    isPySpace ∘ Char.toUpper = isPySpace := by
  funext c
  exact isPySpace_toUpper c

theorem lstrip_pyUpper (l : List Char) : lstrip (pyUpper l) = pyUpper (lstrip l) := by
  unfold lstrip pyUpper
  rw [List.dropWhile_map, isPySpace_comp_toUpper]

theorem rstrip_pyUpper (l : List Char) : rstrip (pyUpper l) = pyUpper (rstrip l) := by
  unfold rstrip pyUpper
  rw [← List.map_reverse, List.dropWhile_map, isPySpace_comp_toUpper, List.map_reverse]

theorem pyStrip_pyUpper (l : List Char) : pyStrip (pyUpper l) = pyUpper (pyStrip l) := by
  unfold pyStrip
  rw [lstrip_pyUpper, rstrip_pyUpper]

theorem pyUpper_pyUpper (l : List Char) : pyUpper (pyUpper l) = pyUpper l := by
  unfold pyUpper
  rw [List.map_map]
  exact List.map_congr_left fun a _ => toUpper_toUpper a

/-! ## Fixed points of the second normalization pass -/

theorem stripRef_of_not_hasRefSuffix {y : List Char} (h : hasRefSuffix y = false) :
    stripRef y = y := by
  unfold stripRef
  unfold hasRefSuffix at h
  cases hm : refMatchRev y.reverse with
  | none => rfl
  | some r => rw [hm] at h; simp at h

theorem dotZero_of_not_applicable {y : List Char} (h : dotZeroApplicable y = false) :
    dotZero y = y := by
  unfold dotZero
  unfold dotZeroApplicable at h
  by_cases hc : 2 < y.length ∧ endsWithDotZero y = true
  · rw [if_pos hc]
    cases hs : signedIntPart (dotZeroBody y) with
    | none => rfl
    | some n =>
      exfalso
      simp [hc.1, hc.2, hs] at h
  · rw [if_neg hc]

theorem pyStrip_normalizeL (s : List Char) :
    pyStrip (normalizeL s) = normalizeL s := by
  unfold normalizeL
  by_cases h : pyStrip s = []
  · rw [if_pos h]
    rfl
  · rw [if_neg h, pyStrip_pyUpper, pyStrip_pyStrip]

theorem pyUpper_normalizeL (s : List Char) :
    pyUpper (normalizeL s) = normalizeL s := by
  unfold normalizeL
  by_cases h : pyStrip s = []
  · rw [if_pos h]
    rfl
  · rw [if_neg h, pyUpper_pyUpper]

theorem normalizeL_fixpoint (s : List Char)
    (h1 : hasRefSuffix (normalizeL s) = false)
    (h2 : dotZeroApplicable (normalizeL s) = false) :
    normalizeL (normalizeL s) = normalizeL s := by
  by_cases hy : normalizeL s = []
  · rw [hy]
    rfl
  · have hs : pyStrip (normalizeL s) = normalizeL s := pyStrip_normalizeL s
    have hn : normalizeL (normalizeL s) =
        if pyStrip (normalizeL s) = [] then []
        else pyUpper (pyStrip (dotZero (stripRef (pyStrip (normalizeL s))))) := rfl
    rw [hn, hs, if_neg hy, stripRef_of_not_hasRefSuffix h1, dotZero_of_not_applicable h2,
      hs, pyUpper_normalizeL]

/-! ## Claim C3 -/

/-- Claim C3 (counterexample): `normalize_serial` is **not** idempotent.
Applied to `"a(b1)(c2)"` it yields `"A(B1)"` (the end-anchored regex strips
only one cell-reference group, and the upper-cased survivor still matches),
and a second application yields `"A"`.  Applied to `"1.0 (c3)"` it yields
`"1.0"` (the cell-reference strip exposes `"1.0 "`, whose trailing space
defeats the `endswith(".0")` test), and a second application collapses it to
`"1"`. -/
theorem normalize_serial_not_idempotent :
    normalize_serial (.strv (normalize_serial (.strv ("a(b1)(c2)".data)))) ≠
      normalize_serial (.strv ("a(b1)(c2)".data)) ∧
    normalize_serial (.strv (normalize_serial (.strv ("1.0 (c3)".data)))) ≠
      normalize_serial (.strv ("1.0 (c3)".data)) := by
  constructor
  · intro h
    exact absurd (congrArg String.mk h) (by decide)
  · intro h
    exact absurd (congrArg String.mk h) (by decide)

/-- Claim C3 (amended): `normalize_serial` is idempotent on every input
whose normalized form neither still carries a trailing cell-reference
group nor is a numeric string ending in `".0"`.  (A second application can
strip a further stacked cell-reference suffix, or collapse a `".0"` that a
trailing space had shielded from the first pass; these are the only
failure modes.) -/
theorem normalize_serial_idempotent_of_stable (v : PyVal)
    (h1 : hasRefSuffix (normalize_serial v) = false)
    (h2 : dotZeroApplicable (normalize_serial v) = false) :
    normalize_serial (.strv (normalize_serial v)) = normalize_serial v := by
  cases v with
  | none =>
    rfl
  | intv n =>
    exact normalizeL_fixpoint (pyValStr (.intv n)) h1 h2
  | floatv n =>
    exact normalizeL_fixpoint (pyValStr (.floatv n)) h1 h2
  | strv s =>
    exact normalizeL_fixpoint s h1 h2

/-- Witness for the amended C3 theorem at the concrete input
`"123456789012.0"` (the spec's own example value). -/
theorem normalize_serial_idempotent_witness :
    normalize_serial (.strv (normalize_serial (.strv ("123456789012.0".data)))) =
      normalize_serial (.strv ("123456789012.0".data)) :=
  normalize_serial_idempotent_of_stable (.strv ("123456789012.0".data))
    (by decide) (by decide)

/-! ## Change Monitor (path_utils.py, class FileMonitor)

The watched file is represented by its current modification time, an
`Option Nat` that is `none` when the file does not exist.  A `stat`
failure is modelled the same way as a missing file (both return `false`
without touching the stored state). -/

structure FileMonitorS where
  lastMtime : Option Nat
  changeCount : Nat
deriving DecidableEq

/-- `FileMonitor.__init__`: `_update_mtime()` stores the file's current
modification time when the file exists (leaving `last_mtime` at `None`
otherwise), and the change counter starts at zero. -/
def FileMonitorS.init (mtime : Option Nat) : FileMonitorS :=
  { lastMtime := mtime, changeCount := 0 }

/-- `FileMonitor.has_changed()`: returns the updated monitor and the
boolean result. -/
def FileMonitorS.hasChanged (m : FileMonitorS) (mtime : Option Nat) :
    FileMonitorS × Bool :=
  match mtime with
  | Option.none => (m, false)
  | some t =>
    match m.lastMtime with
    | Option.none => ({ m with lastMtime := some t }, false)
    | some b =>
      if t ≠ b then ({ lastMtime := some t, changeCount := m.changeCount + 1 }, true)
      else (m, false)

/-- `FileMonitor.reset()`: clears the baseline and counter, then
re-reads the file's modification time. -/
def FileMonitorS.reset (mtime : Option Nat) : FileMonitorS :=
  { lastMtime := mtime, changeCount := 0 }

/-! ## Claim C8 -/

/-- Claim C8 (counterexample): for a file existing at construction time,
the baseline is recorded by `__init__` itself, not by the first
`has_changed()` call; when the file is modified (mtime 100 → 200) between
construction and the first call, that first call returns `true` — the
claim says it must return `false`. -/
theorem fileMonitor_first_call_detects_modification :
    (FileMonitorS.hasChanged (FileMonitorS.init (some 100)) (some 200)).2 = true := by
  decide

/-- Claim C8 (amended): construction and `reset()` themselves record the
file's current modification time as the baseline when the file exists;
`has_changed()` establishes the baseline (and returns `false`) only when
no baseline is stored, i.e. when the file was absent at construction or
reset time.  Otherwise `has_changed()` returns `false` on a missing file
or an unchanged modification time, and returns `true` exactly when the
observed modification time differs from the stored baseline, updating the
baseline and incrementing the change counter. -/
theorem fileMonitor_baseline_semantics :
    (∀ t, (FileMonitorS.init (some t)).lastMtime = some t ∧
      (FileMonitorS.reset (some t)).lastMtime = some t) ∧
    (∀ t, FileMonitorS.hasChanged (FileMonitorS.init Option.none) (some t) =
      ({ lastMtime := some t, changeCount := 0 }, false)) ∧
    (∀ m : FileMonitorS, FileMonitorS.hasChanged m Option.none = (m, false)) ∧
    (∀ b c t, t ≠ b →
      FileMonitorS.hasChanged ⟨some b, c⟩ (some t) = (⟨some t, c + 1⟩, true)) ∧
    (∀ b c, FileMonitorS.hasChanged ⟨some b, c⟩ (some b) = (⟨some b, c⟩, false)) := by
  refine ⟨fun t => ⟨rfl, rfl⟩, fun t => rfl, fun m => rfl, ?_, ?_⟩
  · intro b c t h
    simp [FileMonitorS.hasChanged, h]
  · intro b c
    simp [FileMonitorS.hasChanged]

/-- Witness for the amended C8 theorem: a monitor with baseline 5 sees
mtime 7, reports a change, re-baselines and counts it. -/
theorem fileMonitor_baseline_semantics_witness :
    FileMonitorS.hasChanged ⟨some 5, 0⟩ (some 7) = (⟨some 7, 1⟩, true) :=
  fileMonitor_baseline_semantics.2.2.2.1 5 0 7 (by decide)

/-! ## Python dicts as insertion-ordered association lists

Assignment updates the first (unique) occurrence in place, otherwise
appends; iteration order is insertion order, as in Python 3.7+. -/

def dictGet {β : Type} : List (List Char × β) → List Char → Option β
  | [], _ => Option.none
  | p :: rest, k => if p.1 = k then some p.2 else dictGet rest k

def dictSet {β : Type} : List (List Char × β) → List Char → β → List (List Char × β)
  | [], k, v => [(k, v)]
  | p :: rest, k, v => if p.1 = k then (k, v) :: rest else p :: dictSet rest k v

theorem dictGet_dictSet_self {β : Type} (d : List (List Char × β)) (k : List Char) (v : β) :
    dictGet (dictSet d k v) k = some v := by
  induction d with
  | nil => simp [dictGet, dictSet]
  | cons p rest ih =>
    by_cases h : p.1 = k
    · simp [dictSet, dictGet, h]
    · simp [dictSet, dictGet, h, ih]

theorem dictGet_dictSet_ne {β : Type} (d : List (List Char × β)) (k k' : List Char) (v : β)
    (h : k' ≠ k) : dictGet (dictSet d k v) k' = dictGet d k' := by
  induction d with
  | nil =>
    simp [dictGet, dictSet, Ne.symm h]
  | cons p rest ih =>
    show dictGet (if p.1 = k then (k, v) :: rest else p :: dictSet rest k v) k' =
      dictGet (p :: rest) k'
    by_cases hp : p.1 = k
    · rw [if_pos hp]
      simp only [dictGet]
      rw [if_neg (Ne.symm h), if_neg (hp ▸ Ne.symm h)]
    · rw [if_neg hp]
      simp only [dictGet]
      rw [ih]

/-! ## Date/time parsing (import_sunsim.py, parse_date_time)

The free-form date parser (python-dateutil, falling back to pandas) is
abstracted as an oracle mapping a stripped nonempty string to an optional
timestamp; timestamps are naturals (seconds), so the "earliest possible
sort value" used for unparseable components is 0.  A parse failure is the
oracle returning `none`; the Python `except` branch records a warning and
keeps the default value 0. -/

inductive ParseWarning where
  | futureDate
  | badDate
  | badTime
deriving DecidableEq

def parse_date_time (oracle : List Char → Option Nat) (now : Nat)
    (dateStr timeStr : List Char) : Nat × Nat × List ParseWarning :=
  let dres : Nat × List ParseWarning :=
    if dateStr = [] then (0, [])
    else if pyStrip dateStr = [] then (0, [])
    else
      match oracle (pyStrip dateStr) with
      | some ts => (ts, if now < ts then [ParseWarning.futureDate] else [])
      | Option.none => (0, [ParseWarning.badDate])
  let tres : Nat × List ParseWarning :=
    if timeStr = [] then (0, [])
    else if pyStrip timeStr = [] then (0, [])
    else
      match oracle (pyStrip timeStr) with
      | some ts => (ts, [])
      | Option.none => (0, [ParseWarning.badTime])
  (dres.1, tres.1, dres.2 ++ tres.2)

/-! ## Deduplication (import_sunsim.py, deduplicate_records) -/

/-- A record parsed from one source file: the identifier and date/time
strings plus the five electrical readings (opaque payload for the
deduplication logic). -/
structure DRec where
  serialNo : List Char
  date : Option (List Char)
  ttime : Option (List Char)
  pm : Option Int
  isc : Option Int
  voc : Option Int
  ipm : Option Int
  vpm : Option Int
deriving DecidableEq

/-- `record.get('Date') or ''`. -/
def orEmpty (o : Option (List Char)) : List Char := o.getD []

abbrev SortKey := Nat × Nat × Nat

/-- Python tuple comparison `sort_key > existing_key` (lexicographic). -/
def keyGT (a b : SortKey) : Bool :=
  b.1 < a.1 || (a.1 == b.1 && (b.2.1 < a.2.1 || (a.2.1 == b.2.1 && b.2.2 < a.2.2)))

def rowSortKey (oracle : List Char → Option Nat) (now fileMtime : Nat) (r : DRec) :
    SortKey :=
  (fileMtime, (parse_date_time oracle now (orEmpty r.date) (orEmpty r.ttime)).1,
    (parse_date_time oracle now (orEmpty r.date) (orEmpty r.ttime)).2.1)

/-- Loop body of `deduplicate_records`. -/
def dedupStep (oracle : List Char → Option Nat) (now fileMtime : Nat)
    (m : List (List Char × (SortKey × DRec))) (r : DRec) :
    List (List Char × (SortKey × DRec)) :=
  if pyStrip r.serialNo = [] then m
  else
    let key := rowSortKey oracle now fileMtime r
    match dictGet m (pyStrip r.serialNo) with
    | Option.none => dictSet m (pyStrip r.serialNo) (key, r)
    | some e => if keyGT key e.1 then dictSet m (pyStrip r.serialNo) (key, r) else m

/-- `deduplicate_records`: latest-run-wins deduplication keyed by the
stripped serial string; returns the insertion-ordered serial-to-record
dict. -/
def deduplicate_records (oracle : List Char → Option Nat) (now : Nat)
    (records : List DRec) (fileMtime : Nat) : List (List Char × DRec) :=
  (records.foldl (dedupStep oracle now fileMtime) []).map (fun p => (p.1, (p.2.2)))

/-- All rows of one parsed file sharing the (stripped) identifier `s`,
paired with their composite sort keys, in order of appearance. -/
def serialGroup (oracle : List Char → Option Nat) (now fileMtime : Nat)
    (records : List DRec) (s : List Char) : List (SortKey × DRec) :=
  records.filterMap fun r =>
    if pyStrip r.serialNo = s then some (rowSortKey oracle now fileMtime r, r)
    else Option.none

/-- Specification reading of the deduplication rule: the first element of
the group that no other element's key strictly exceeds. -/
def firstMaxEntry (l : List (SortKey × DRec)) : Option (SortKey × DRec) :=
  l.find? fun p => l.all fun q => !keyGT q.1 p.1

theorem keyGT_irrefl (a : SortKey) : keyGT a a = false := by
  rcases a with ⟨a1, a2, a3⟩
  simp [keyGT]

theorem keyGT_trans {a b c : SortKey}
    (h1 : keyGT a b = true) (h2 : keyGT b c = true) : keyGT a c = true := by
  rcases a with ⟨a1, a2, a3⟩
  rcases b with ⟨b1, b2, b3⟩
  rcases c with ⟨c1, c2, c3⟩
  simp [keyGT] at h1 h2 ⊢
  omega

theorem keyGT_of_gt_of_not_gt {a b c : SortKey}
    (h1 : keyGT a b = true) (h2 : keyGT c b = false) : keyGT a c = true := by
  rcases a with ⟨a1, a2, a3⟩
  rcases b with ⟨b1, b2, b3⟩
  rcases c with ⟨c1, c2, c3⟩
  simp [keyGT] at h1 h2 ⊢
  omega

theorem firstMaxEntry_singleton (e : SortKey × DRec) : firstMaxEntry [e] = some e := by
  simp [firstMaxEntry, keyGT_irrefl]

theorem firstMaxEntry_append_of_not_gt {l : List (SortKey × DRec)}
    {p x : SortKey × DRec} (h : firstMaxEntry l = some p)
    (hx : keyGT x.1 p.1 = false) : firstMaxEntry (l ++ [x]) = some p := by
  rw [firstMaxEntry, List.find?_eq_some] at h ⊢
  obtain ⟨hp, as, bs, hsplit, has⟩ := h
  have hmem : ∀ q ∈ l, keyGT q.1 p.1 = false := by
    intro q hq
    have := List.all_eq_true.mp hp q hq
    simpa using this
  refine ⟨?_, as, bs ++ [x], ?_, ?_⟩
  · rw [List.all_eq_true]
    intro q hq
    rcases List.mem_append.mp hq with hq | hq
    · simpa using hmem q hq
    · rcases List.mem_singleton.mp hq with rfl
      simpa using hx
  · rw [hsplit]
    simp
  · intro a ha
    have := has a ha
    have haL : a ∈ l := by
      rw [hsplit]
      exact List.mem_append.mpr (Or.inl ha)
    simp only [Bool.not_eq_eq_eq_not, Bool.not_true, List.all_eq_false] at this ⊢
    obtain ⟨q, hq, hqa⟩ := this
    exact ⟨q, List.mem_append.mpr (Or.inl hq), hqa⟩

theorem firstMaxEntry_append_of_gt {l : List (SortKey × DRec)}
    {p x : SortKey × DRec} (h : firstMaxEntry l = some p)
    (hx : keyGT x.1 p.1 = true) : firstMaxEntry (l ++ [x]) = some x := by
  rw [firstMaxEntry, List.find?_eq_some] at h ⊢
  obtain ⟨hp, as, bs, hsplit, has⟩ := h
  have hmem : ∀ q ∈ l, keyGT q.1 p.1 = false := by
    intro q hq
    have := List.all_eq_true.mp hp q hq
    simpa using this
  refine ⟨?_, l, [], by simp, ?_⟩
  · rw [List.all_eq_true]
    intro q hq
    rcases List.mem_append.mp hq with hq | hq
    · have hqp := hmem q hq
      have : keyGT q.1 x.1 = false := by
        cases hqx : keyGT q.1 x.1
        · rfl
        · exact absurd (keyGT_trans hqx hx) (by rw [hqp]; simp)
      simpa using this
    · rcases List.mem_singleton.mp hq with rfl
      simp [keyGT_irrefl]
  · intro a ha
    have hxa : keyGT x.1 a.1 = true := keyGT_of_gt_of_not_gt hx (hmem a ha)
    simp only [Bool.not_eq_eq_eq_not, Bool.not_true, List.all_eq_false]
    exact ⟨x, List.mem_append.mpr (Or.inr (List.mem_singleton.mpr rfl)),
      by simpa using hxa⟩

theorem dictGet_map_snd {β γ : Type} (g : β → γ) (d : List (List Char × β))
    (k : List Char) :
    dictGet (d.map (fun p => (p.1, g p.2))) k = (dictGet d k).map g := by
  induction d with
  | nil => rfl
  | cons p rest ih =>
    by_cases h : p.1 = k
    · simp [dictGet, h]
    · simp [dictGet, h, ih]

/-- Invariant of the deduplication loop: after processing `done`, the map
holds, for each nonempty stripped serial, the first maximal-key entry of
that serial's group, and holds nothing for serials with empty groups. -/
def dedupInv (oracle : List Char → Option Nat) (now fileMtime : Nat)
    (m : List (List Char × (SortKey × DRec))) (done : List DRec) : Prop :=
  ∀ s, s ≠ ([] : List Char) →
    dictGet m s = firstMaxEntry (serialGroup oracle now fileMtime done s) ∧
    (dictGet m s = Option.none ↔ serialGroup oracle now fileMtime done s = [])

theorem serialGroup_append_single (oracle : List Char → Option Nat)
    (now fileMtime : Nat) (done : List DRec) (r : DRec) (s : List Char) :
    serialGroup oracle now fileMtime (done ++ [r]) s =
      serialGroup oracle now fileMtime done s ++
        (if pyStrip r.serialNo = s
          then [(rowSortKey oracle now fileMtime r, r)] else []) := by
  unfold serialGroup
  rw [List.filterMap_append]
  congr 1
  by_cases h : pyStrip r.serialNo = s <;> simp [h]

theorem dedupStep_skip {oracle : List Char → Option Nat} {now fileMtime : Nat}
    (m : List (List Char × (SortKey × DRec))) (r : DRec)
    (hr : pyStrip r.serialNo = []) :
    dedupStep oracle now fileMtime m r = m := by
  rw [dedupStep, if_pos hr]

theorem dedupStep_absent {oracle : List Char → Option Nat} {now fileMtime : Nat}
    (m : List (List Char × (SortKey × DRec))) (r : DRec)
    (hr : ¬pyStrip r.serialNo = [])
    (hd : dictGet m (pyStrip r.serialNo) = Option.none) :
    dedupStep oracle now fileMtime m r =
      dictSet m (pyStrip r.serialNo) (rowSortKey oracle now fileMtime r, r) := by
  rw [dedupStep, if_neg hr]
  show (match dictGet m (pyStrip r.serialNo) with
    | Option.none =>
      dictSet m (pyStrip r.serialNo) (rowSortKey oracle now fileMtime r, r)
    | some e =>
      if keyGT (rowSortKey oracle now fileMtime r) e.1 then
        dictSet m (pyStrip r.serialNo) (rowSortKey oracle now fileMtime r, r)
      else m) = _
  rw [hd]

theorem dedupStep_present {oracle : List Char → Option Nat} {now fileMtime : Nat}
    (m : List (List Char × (SortKey × DRec))) (r : DRec) (e : SortKey × DRec)
    (hr : ¬pyStrip r.serialNo = [])
    (hd : dictGet m (pyStrip r.serialNo) = some e) :
    dedupStep oracle now fileMtime m r =
      if keyGT (rowSortKey oracle now fileMtime r) e.1 then
        dictSet m (pyStrip r.serialNo) (rowSortKey oracle now fileMtime r, r)
      else m := by
  rw [dedupStep, if_neg hr]
  show (match dictGet m (pyStrip r.serialNo) with
    | Option.none =>
      dictSet m (pyStrip r.serialNo) (rowSortKey oracle now fileMtime r, r)
    | some e =>
      if keyGT (rowSortKey oracle now fileMtime r) e.1 then
        dictSet m (pyStrip r.serialNo) (rowSortKey oracle now fileMtime r, r)
      else m) = _
  rw [hd]

theorem dedupStep_inv {oracle : List Char → Option Nat} {now fileMtime : Nat}
    {m : List (List Char × (SortKey × DRec))} {done : List DRec} (r : DRec)
    (hinv : dedupInv oracle now fileMtime m done) :
    dedupInv oracle now fileMtime (dedupStep oracle now fileMtime m r)
      (done ++ [r]) := by
  intro s hs
  rw [serialGroup_append_single]
  by_cases hr : pyStrip r.serialNo = []
  · have hne : ¬(pyStrip r.serialNo = s) := fun hc => hs (hc ▸ hr ▸ rfl)
    rw [dedupStep_skip m r hr, if_neg hne, List.append_nil]
    exact hinv s hs
  · by_cases hsr : pyStrip r.serialNo = s
    · rw [if_pos hsr]
      cases hd : dictGet m s with
      | none =>
        have hempty := ((hinv s hs).2).mp hd
        rw [dedupStep_absent m r hr (hsr ▸ hd), hsr, hempty, List.nil_append,
          firstMaxEntry_singleton, dictGet_dictSet_self]
        simp
      | some e =>
        have heq := (hinv s hs).1
        rw [hd] at heq
        rw [dedupStep_present m r e hr (hsr ▸ hd)]
        cases hgt : keyGT (rowSortKey oracle now fileMtime r) e.1 with
        | true =>
          rw [if_pos rfl, hsr, dictGet_dictSet_self,
            firstMaxEntry_append_of_gt heq.symm hgt]
          simp
        | false =>
          rw [if_neg (by simp), firstMaxEntry_append_of_not_gt heq.symm hgt, hd]
          refine ⟨rfl, ?_⟩
          simp
    · have hns : s ≠ pyStrip r.serialNo := fun hc => hsr hc.symm
      rw [if_neg hsr, List.append_nil]
      have hget : dictGet (dedupStep oracle now fileMtime m r) s = dictGet m s := by
        cases hd : dictGet m (pyStrip r.serialNo) with
        | none =>
          rw [dedupStep_absent m r hr hd]
          exact dictGet_dictSet_ne m _ s _ hns
        | some e =>
          rw [dedupStep_present m r e hr hd]
          cases hgt : keyGT (rowSortKey oracle now fileMtime r) e.1 with
          | true =>
            rw [if_pos rfl]
            exact dictGet_dictSet_ne m _ s _ hns
          | false =>
            rw [if_neg (by simp)]
      rw [hget]
      exact hinv s hs

theorem dedup_loop_inv (oracle : List Char → Option Nat) (now fileMtime : Nat)
    (records : List DRec) :
    ∀ (done : List DRec) (m : List (List Char × (SortKey × DRec))),
      dedupInv oracle now fileMtime m done →
      dedupInv oracle now fileMtime
        (records.foldl (dedupStep oracle now fileMtime) m) (done ++ records) := by
  induction records with
  | nil =>
    intro done m h
    simpa using h
  | cons r rest ih =>
    intro done m h
    have h2 := ih (done ++ [r]) (dedupStep oracle now fileMtime m r)
      (dedupStep_inv r h)
    simpa [List.append_assoc] using h2

/-! ## Claim C4 -/

/-- Claim C4: intra-file deduplication keeps, for each identifier, exactly
the first-encountered row among those with the lexicographically greatest
composite key `(file mtime, parsed date, parsed time)` (so appearance
order matters only to break exact key ties); and an unparseable nonempty
date or time string contributes the smallest possible sort value (0) for
that component while recording a warning — the function is total, so no
exception escapes. -/
theorem deduplicate_records_correct :
    (∀ (oracle : List Char → Option Nat) (now fileMtime : Nat)
        (records : List DRec) (s : List Char), s ≠ [] →
        dictGet (deduplicate_records oracle now records fileMtime) s =
          (firstMaxEntry (serialGroup oracle now fileMtime records s)).map
            (fun p => p.2)) ∧
    (∀ (oracle : List Char → Option Nat) (now : Nat) (d t : List Char),
        pyStrip d ≠ [] → oracle (pyStrip d) = Option.none →
        (parse_date_time oracle now d t).1 = 0 ∧
          ParseWarning.badDate ∈ (parse_date_time oracle now d t).2.2) ∧
    (∀ (oracle : List Char → Option Nat) (now : Nat) (d t : List Char),
        pyStrip t ≠ [] → oracle (pyStrip t) = Option.none →
        (parse_date_time oracle now d t).2.1 = 0 ∧
          ParseWarning.badTime ∈ (parse_date_time oracle now d t).2.2) := by
  refine ⟨?_, ?_, ?_⟩
  · intro oracle now fileMtime records s hs
    have hbase : dedupInv oracle now fileMtime [] [] := by
      intro s' _
      exact ⟨rfl, by simp [dictGet, serialGroup]⟩
    have h := dedup_loop_inv oracle now fileMtime records [] [] hbase
    rw [List.nil_append] at h
    rw [deduplicate_records, dictGet_map_snd, (h s hs).1]
  · intro oracle now d t hd ho
    have hd' : d ≠ [] := fun hc => hd (by rw [hc]; rfl)
    rw [parse_date_time]
    simp only [if_neg hd', if_neg hd, ho]
    simp
  · intro oracle now d t ht ho
    have ht' : t ≠ [] := fun hc => ht (by rw [hc]; rfl)
    rw [parse_date_time]
    simp only [if_neg ht', if_neg ht, ho]
    simp

/-- Oracle used by the C4 witness: every string is unparseable. -/
def dedupOracleNone : List Char → Option Nat := fun _ => Option.none

/-- Row used by the C4 witness. -/
def dedupWitnessRow : DRec :=
  { serialNo := "S1".data, date := some ("bad-date".data), ttime := Option.none,
    pm := some 200, isc := Option.none, voc := Option.none, ipm := Option.none,
    vpm := Option.none }

/-- Witness for C4: a two-row file whose rows share serial "S1" and tie on
the composite key keeps the first row, and the unparseable date string
yields sort value 0 plus a recorded warning. -/
theorem deduplicate_records_correct_witness :
    dictGet (deduplicate_records dedupOracleNone 0
        [dedupWitnessRow, { dedupWitnessRow with pm := some 300 }] 5) ("S1".data) =
      (firstMaxEntry (serialGroup dedupOracleNone 0 5
        [dedupWitnessRow, { dedupWitnessRow with pm := some 300 }] ("S1".data))).map
        (fun p => p.2) ∧
    (parse_date_time dedupOracleNone 0 ("bad-date".data) []).1 = 0 ∧
      ParseWarning.badDate ∈ (parse_date_time dedupOracleNone 0 ("bad-date".data) []).2.2 :=
  ⟨deduplicate_records_correct.1 dedupOracleNone 0 5
      [dedupWitnessRow, { dedupWitnessRow with pm := some 300 }] ("S1".data) (by decide),
    deduplicate_records_correct.2.1 dedupOracleNone 0 ("bad-date".data) [] (by decide) rfl⟩

/-! ## The SerialNos sheet (serial_database.py)

One data row of the backing workbook's `SerialNos` sheet.  Cell values
are modelled as optional strings (identifier, date, time, provenance) and
optional integers (the five electrical readings, whose numeric rendering
is irrelevant to every claim below: they are only ever copied).  A `none`
cell is an empty cell; the float-NaN that pandas substitutes for missing
cells lies outside this string model, so "missing" coincides with falsy
here. -/

/-- A date/time-column value as the import and read paths see it:
Python `None` (the column is absent, or the stored cell is empty),
float `nan` (what pandas yields for a blank cell of an existing column —
truthy, and not `None`, so `ws.cell` does write it), or a string
(datetimes and numbers rendered as such). -/
inductive PyDT where
  | pynone : PyDT
  | nan : PyDT
  | str : List Char → PyDT
deriving DecidableEq

/-- Python truthiness of such a value: `None` and the empty string are
falsy; `nan` is truthy. -/
def truthyDT : PyDT → Bool
  | PyDT.pynone => false
  | PyDT.nan => true
  | PyDT.str l => decide (l ≠ [])

structure SRow where
  serialNo : List Char
  pm : Option Int
  isc : Option Int
  voc : Option Int
  ipm : Option Int
  vpm : Option Int
  date : PyDT
  ttime : PyDT
  firstImported : List Char
  lastUpdated : List Char
deriving DecidableEq

/-- The normalized forms of all rows' identifier cells, in sheet order. -/
def canonList (store : List SRow) : List (List Char) :=
  store.map fun r => normalizeL r.serialNo

/-- A candidate row of a parsed simulator file, after column resolution
and the `float()`/`pd.isna` coercion of the five electrical values to
float-or-`None` (`r.serial` is `none` when `pd.isna(serial)` holds; a
blank date/time cell of an existing column is `PyDT.nan`, a missing
column is `PyDT.pynone`). -/
structure CandRow where
  serial : Option (List Char)
  pm : Option Int
  isc : Option Int
  voc : Option Int
  ipm : Option Int
  vpm : Option Int
  date : PyDT
  ttime : PyDT
deriving DecidableEq

/-! ## `existing_serials` (import_simulator_file, lines 776-782)

The loop `for row in ws.iter_rows(min_row=2): existing_serials[normalize_serial(row[0].value)] = row[0].row`
over data rows numbered from 2; later rows overwrite earlier dict
entries. -/

def buildExistingAux : Nat → List SRow → List (List Char × Nat) → List (List Char × Nat)
  | _, [], d => d
  | n, r :: rest, d =>
    buildExistingAux (n + 1) rest
      (if r.serialNo ≠ [] ∧ normalizeL r.serialNo ≠ [] then
        dictSet d (normalizeL r.serialNo) n
      else d)

def buildExisting (store : List SRow) : List (List Char × Nat) :=
  buildExistingAux 2 store []

/-- Row number of the last sheet row (counting from `n`) whose identifier
cell is truthy and normalizes to `c`; `none` if there is no such row. -/
def lastMatchFrom : Nat → List SRow → List Char → Option Nat
  | _, [], _ => Option.none
  | n, r :: rest, c =>
    match lastMatchFrom (n + 1) rest c with
    | some k => some k
    | Option.none =>
      if (r.serialNo ≠ [] ∧ normalizeL r.serialNo ≠ []) ∧ normalizeL r.serialNo = c then
        some n
      else Option.none

theorem buildExistingAux_get (store : List SRow) :
    ∀ (n : Nat) (d : List (List Char × Nat)) (c : List Char),
      dictGet (buildExistingAux n store d) c =
        match lastMatchFrom n store c with
        | some k => some k
        | Option.none => dictGet d c := by
  induction store with
  | nil => intro n d c; rfl
  | cons r rest ih =>
    intro n d c
    show dictGet (buildExistingAux (n + 1) rest _) c = _
    rw [ih]
    cases hlm : lastMatchFrom (n + 1) rest c with
    | some k =>
      show some k = _
      rw [lastMatchFrom, hlm]
    | none =>
      rw [lastMatchFrom, hlm]
      by_cases hg : r.serialNo ≠ [] ∧ normalizeL r.serialNo ≠ []
      · rw [if_pos hg]
        by_cases hc : normalizeL r.serialNo = c
        · rw [if_pos ⟨hg, hc⟩, hc, dictGet_dictSet_self]
        · rw [if_neg (fun hp => hc hp.2), dictGet_dictSet_ne _ _ _ _ (fun he => hc he.symm)]
      · rw [if_neg hg, if_neg (fun hp => hg hp.1)]

theorem buildExisting_get (store : List SRow) (c : List Char) :
    dictGet (buildExisting store) c =
      match lastMatchFrom 2 store c with
      | some k => some k
      | Option.none => Option.none := by
  rw [buildExisting, buildExistingAux_get]
  cases lastMatchFrom 2 store c <;> rfl

theorem lastMatchFrom_none_not_mem {store : List SRow} {c : List Char}
    (hc : c ≠ []) :
    ∀ n, lastMatchFrom n store c = Option.none → c ∉ canonList store := by
  induction store with
  | nil => intro n _ hmem; simp [canonList] at hmem
  | cons r rest ih =>
    intro n h hmem
    rw [lastMatchFrom] at h
    cases hlm : lastMatchFrom (n + 1) rest c with
    | some k => rw [hlm] at h; exact Option.noConfusion h
    | none =>
      rw [hlm] at h
      have hmem' : normalizeL r.serialNo = c ∨ c ∈ canonList rest := by
        simpa [canonList, eq_comm] using hmem
      rcases hmem' with hcanon | hrest
      · have hser : r.serialNo ≠ [] := by
          intro he
          rw [he] at hcanon
          exact hc (hcanon ▸ rfl)
        rw [if_pos ⟨⟨hser, hcanon ▸ hc⟩, hcanon⟩] at h
        exact Option.noConfusion h
      · exact ih (n + 1) hlm hrest

theorem lastMatchFrom_some_spec {store : List SRow} {c : List Char} :
    ∀ n k, lastMatchFrom n store c = some k →
      n ≤ k ∧ k - n < store.length ∧
        ∃ row, store.get? (k - n) = some row ∧ row.serialNo ≠ [] ∧
          normalizeL row.serialNo = c := by
  induction store with
  | nil => intro n k h; exact Option.noConfusion h
  | cons r rest ih =>
    intro n k h
    rw [lastMatchFrom] at h
    cases hlm : lastMatchFrom (n + 1) rest c with
    | some k' =>
      rw [hlm] at h
      cases h
      obtain ⟨h1, h2, row, h3, h4, h5⟩ := ih (n + 1) k hlm
      refine ⟨by omega, by simp; omega, row, ?_, h4, h5⟩
      have : k - n = (k - (n + 1)) + 1 := by omega
      rw [this]
      simpa using h3
    | none =>
      rw [hlm] at h
      by_cases hg : (r.serialNo ≠ [] ∧ normalizeL r.serialNo ≠ []) ∧ normalizeL r.serialNo = c
      · rw [if_pos hg] at h
        cases h
        refine ⟨Nat.le_refl _, by simp, r, ?_, hg.1.1, hg.2⟩
        simp
      · rw [if_neg hg] at h
        exact Option.noConfusion h

theorem lastMatchFrom_of_get {store : List SRow} {c : List Char}
    (hnd : (canonList store).Nodup) (hc : c ≠ []) :
    ∀ n i row, store.get? i = some row → normalizeL row.serialNo = c →
      lastMatchFrom n store c = some (n + i) := by
  induction store with
  | nil => intro n i row h; exact Option.noConfusion h
  | cons r rest ih =>
    intro n i row hget hcanon
    have hnd2 : normalizeL r.serialNo ∉ canonList rest ∧ (canonList rest).Nodup := by
      have := List.nodup_cons.mp (show (normalizeL r.serialNo :: canonList rest).Nodup by
        simpa [canonList] using hnd)
      exact this
    cases i with
    | zero =>
      have hr : r = row := by simpa using hget
      subst hr
      have hnotin : c ∉ canonList rest := hcanon ▸ hnd2.1
      have hnone : lastMatchFrom (n + 1) rest c = Option.none := by
        cases hlm : lastMatchFrom (n + 1) rest c with
        | none => rfl
        | some k =>
          obtain ⟨_, _, row', hrow', _, hcan'⟩ := lastMatchFrom_some_spec (n + 1) k hlm
          exact absurd
            (List.mem_map.mpr ⟨row', List.get?_mem hrow', hcan'⟩) hnotin
      rw [lastMatchFrom, hnone]
      have hser : r.serialNo ≠ [] := by
        intro he
        rw [he] at hcanon
        exact hc (hcanon ▸ rfl)
      rw [if_pos ⟨⟨hser, hcanon ▸ hc⟩, hcanon⟩]
      simp
    | succ j =>
      have hget' : rest.get? j = some row := by simpa using hget
      have hlm := ih hnd2.2 (n + 1) j row hget' hcanon
      rw [lastMatchFrom, hlm]
      have harith : n + 1 + j = n + (j + 1) := by omega
      rw [harith]

/-! ## `import_simulator_file` (serial_database.py, lines 617-839)

The file has already been parsed and its columns resolved; `rows` is the
dataframe's row list.  The loop below mirrors lines 786-819: skip rows
with missing/empty/normalizing-to-empty identifiers; update the stored
row in place when the canonical identifier is a key of
`existing_serials` (which is built once, before the loop, and never
extended by the appends); otherwise append a new row. -/

def updateAt {α : Type} : List α → Nat → (α → α) → List α
  | [], _, _ => []
  | a :: t, 0, f => f a :: t
  | a :: t, i + 1, f => a :: updateAt t i f

/-- `ws.cell(row, col, value)` on an electrical-value cell: openpyxl's
`Worksheet.cell` assigns only when `value is not None`, so a `None`
(missing or NaN-coerced) candidate value leaves the stored cell's old
content in place. -/
def writeCell (v old : Option Int) : Option Int :=
  match v with
  | some x => some x
  | Option.none => old

/-- The in-place update of an existing row (lines 788-803): each
electrical cell is rewritten when the incoming value is present and kept
otherwise; "Date" and "TTime" are rewritten when the incoming value is
truthy (including NaN); "Last Updated" is always rewritten; the
identifier cell and "First Imported" are untouched. -/
def updateFn (r : CandRow) (now : List Char) (old : SRow) : SRow :=
  { old with
    pm := writeCell r.pm old.pm, isc := writeCell r.isc old.isc,
    voc := writeCell r.voc old.voc, ipm := writeCell r.ipm old.ipm,
    vpm := writeCell r.vpm old.vpm,
    date := if truthyDT r.date then r.date else old.date,
    ttime := if truthyDT r.ttime then r.ttime else old.ttime,
    lastUpdated := now }

/-- The appended row (lines 805-810). -/
def newRowOf (c : List Char) (r : CandRow) (now : List Char) : SRow :=
  { serialNo := c, pm := r.pm, isc := r.isc, voc := r.voc, ipm := r.ipm,
    vpm := r.vpm, date := r.date, ttime := r.ttime,
    firstImported := now, lastUpdated := now }

structure ImportRes where
  store : List SRow
  imported : Nat
  updated : Nat
deriving DecidableEq

def importStep (exist : List (List Char × Nat)) (now : List Char)
    (acc : ImportRes) (r : CandRow) : ImportRes :=
  match r.serial with
  | Option.none => acc
  | some s =>
    if s = [] then acc
    else if normalizeL s = [] then acc
    else
      match dictGet exist (normalizeL s) with
      | some rowNum =>
        { acc with
          store := updateAt acc.store (rowNum - 2) (updateFn r now)
          updated := acc.updated + 1 }
      | Option.none =>
        { acc with
          store := acc.store ++ [newRowOf (normalizeL s) r now]
          imported := acc.imported + 1 }

/-- The store-mutating core of `import_simulator_file`: returns the
updated sheet and the `(imported, updated)` counters. -/
def import_simulator_file (store : List SRow) (rows : List CandRow)
    (now : List Char) : ImportRes :=
  rows.foldl (importStep (buildExisting store) now) ⟨store, 0, 0⟩

/-- A record value of the pre-validated dictionary handed to
`import_simulator_file_validated` (also the shape served by the detail
cache). -/
structure RecData where
  pm : Option Int
  isc : Option Int
  voc : Option Int
  ipm : Option Int
  vpm : Option Int
  date : PyDT
  ttime : PyDT
deriving DecidableEq

/-- In-place update of `import_simulator_file_validated` (lines 874-887):
`ws.cell` again skips the assignment when `record.get(...)` is `None`. -/
def updateValidatedFn (rec : RecData) (now : List Char) (old : SRow) : SRow :=
  { old with
    pm := writeCell rec.pm old.pm, isc := writeCell rec.isc old.isc,
    voc := writeCell rec.voc old.voc, ipm := writeCell rec.ipm old.ipm,
    vpm := writeCell rec.vpm old.vpm,
    date := if truthyDT rec.date then rec.date else old.date,
    ttime := if truthyDT rec.ttime then rec.ttime else old.ttime,
    lastUpdated := now }

/-- Appended row of `import_simulator_file_validated` (lines 886-893):
note the raw dictionary key is written to the identifier cell without
re-normalization. -/
def newValidatedRowOf (k : List Char) (rec : RecData) (now : List Char) : SRow :=
  { serialNo := k, pm := rec.pm, isc := rec.isc, voc := rec.voc, ipm := rec.ipm,
    vpm := rec.vpm, date := rec.date, ttime := rec.ttime,
    firstImported := now, lastUpdated := now }

def importValidatedStep (exist : List (List Char × Nat)) (now : List Char)
    (acc : ImportRes) (kv : List Char × RecData) : ImportRes :=
  match dictGet exist kv.1 with
  | some rowNum =>
    { acc with
      store := updateAt acc.store (rowNum - 2) (updateValidatedFn kv.2 now)
      updated := acc.updated + 1 }
  | Option.none =>
    { acc with
      store := acc.store ++ [newValidatedRowOf kv.1 kv.2 now]
      imported := acc.imported + 1 }

/-- The store-mutating core of `import_simulator_file_validated`
(serial_database.py, lines 841-911); `records` is the insertion-ordered
serial-to-record dictionary. -/
def import_simulator_file_validated (store : List SRow)
    (records : List (List Char × RecData)) (now : List Char) : ImportRes :=
  records.foldl (importValidatedStep (buildExisting store) now) ⟨store, 0, 0⟩

/-! ## Unfolding lemmas for the import step -/

theorem importStep_serial_none {exist : List (List Char × Nat)} {now : List Char}
    {acc : ImportRes} {r : CandRow} (hs : r.serial = Option.none) :
    importStep exist now acc r = acc := by
  rw [importStep, hs]

theorem importStep_serial_empty {exist : List (List Char × Nat)} {now : List Char}
    {acc : ImportRes} {r : CandRow} {s : List Char} (hs : r.serial = some s)
    (he : s = []) : importStep exist now acc r = acc := by
  simp only [importStep, hs]
  rw [if_pos he]

theorem importStep_canon_empty {exist : List (List Char × Nat)} {now : List Char}
    {acc : ImportRes} {r : CandRow} {s : List Char} (hs : r.serial = some s)
    (he : ¬s = []) (hc : normalizeL s = []) : importStep exist now acc r = acc := by
  simp only [importStep, hs]
  rw [if_neg he, if_pos hc]

theorem importStep_update {exist : List (List Char × Nat)} {now : List Char}
    {acc : ImportRes} {r : CandRow} {s : List Char} {k : Nat}
    (hs : r.serial = some s) (he : ¬s = []) (hc : ¬normalizeL s = [])
    (hk : dictGet exist (normalizeL s) = some k) :
    importStep exist now acc r =
      { acc with
        store := updateAt acc.store (k - 2) (updateFn r now)
        updated := acc.updated + 1 } := by
  simp only [importStep, hs]
  rw [if_neg he, if_neg hc, hk]

theorem importStep_append {exist : List (List Char × Nat)} {now : List Char}
    {acc : ImportRes} {r : CandRow} {s : List Char}
    (hs : r.serial = some s) (he : ¬s = []) (hc : ¬normalizeL s = [])
    (hk : dictGet exist (normalizeL s) = Option.none) :
    importStep exist now acc r =
      { acc with
        store := acc.store ++ [newRowOf (normalizeL s) r now]
        imported := acc.imported + 1 } := by
  simp only [importStep, hs]
  rw [if_neg he, if_neg hc, hk]

/-! ## Canonical identifiers added by one import -/

/-- The canonical identifiers of the rows an import call appends (those
whose canonical identifier is not a key of `existing_serials`), in
processing order and with multiplicity. -/
def newIds (exist : List (List Char × Nat)) : List CandRow → List (List Char)
  | [] => []
  | r :: rest =>
    match r.serial with
    | Option.none => newIds exist rest
    | some s =>
      if s = [] then newIds exist rest
      else if normalizeL s = [] then newIds exist rest
      else
        match dictGet exist (normalizeL s) with
        | some _ => newIds exist rest
        | Option.none => normalizeL s :: newIds exist rest

theorem newIds_mem {exist : List (List Char × Nat)} :
    ∀ {rows : List CandRow} {c : List Char}, c ∈ newIds exist rows →
      c ≠ [] ∧ dictGet exist c = Option.none := by
  intro rows
  induction rows with
  | nil => intro c h; simp [newIds] at h
  | cons r rest ih =>
    intro c h
    cases hs : r.serial with
    | none =>
      simp only [newIds, hs] at h
      exact ih h
    | some s =>
      simp only [newIds, hs] at h
      by_cases he : s = []
      · rw [if_pos he] at h; exact ih h
      · rw [if_neg he] at h
        by_cases hc : normalizeL s = []
        · rw [if_pos hc] at h; exact ih h
        · rw [if_neg hc] at h
          cases hk : dictGet exist (normalizeL s) with
          | some k => rw [hk] at h; exact ih h
          | none =>
            rw [hk] at h
            rcases List.mem_cons.mp h with rfl | h'
            · exact ⟨hc, hk⟩
            · exact ih h'

theorem canonList_updateAt (st : List SRow) (i : Nat) (f : SRow → SRow)
    (hf : ∀ a, (f a).serialNo = a.serialNo) :
    canonList (updateAt st i f) = canonList st := by
  induction st generalizing i with
  | nil => rfl
  | cons a t ih =>
    cases i with
    | zero =>
      show canonList (f a :: t) = canonList (a :: t)
      simp [canonList, hf a]
    | succ j =>
      show canonList (a :: updateAt t j f) = canonList (a :: t)
      simp only [canonList, List.map_cons]
      rw [show (updateAt t j f).map (fun r => normalizeL r.serialNo) = canonList (updateAt t j f) from rfl,
        ih j]
      rfl

theorem updateFn_serialNo (r : CandRow) (now : List Char) (a : SRow) :
    (updateFn r now a).serialNo = a.serialNo := rfl

theorem canonList_append_row (st : List SRow) (row : SRow) :
    canonList (st ++ [row]) = canonList st ++ [normalizeL row.serialNo] := by
  simp [canonList]

theorem canonList_import_loop (exist : List (List Char × Nat)) (now : List Char) :
    ∀ (rows : List CandRow) (acc : ImportRes),
      canonList ((rows.foldl (importStep exist now) acc).store) =
        canonList acc.store ++ (newIds exist rows).map normalizeL := by
  intro rows
  induction rows with
  | nil => intro acc; simp [newIds]
  | cons r rest ih =>
    intro acc
    show canonList ((rest.foldl (importStep exist now) (importStep exist now acc r)).store) = _
    rw [ih]
    cases hs : r.serial with
    | none =>
      rw [importStep_serial_none hs]
      simp only [newIds, hs]
    | some s =>
      by_cases he : s = []
      · rw [importStep_serial_empty hs he]
        simp only [newIds, hs]
        rw [if_pos he]
      · by_cases hc : normalizeL s = []
        · rw [importStep_canon_empty hs he hc]
          simp only [newIds, hs]
          rw [if_neg he, if_pos hc]
        · cases hk : dictGet exist (normalizeL s) with
          | some k =>
            rw [importStep_update hs he hc hk]
            simp only [newIds, hs]
            rw [if_neg he, if_neg hc, hk]
            show canonList (updateAt acc.store (k - 2) (updateFn r now)) ++ _ = _
            rw [canonList_updateAt _ _ _ (updateFn_serialNo r now)]
          | none =>
            rw [importStep_append hs he hc hk]
            simp only [newIds, hs]
            rw [if_neg he, if_neg hc, hk]
            show canonList (acc.store ++ [newRowOf (normalizeL s) r now]) ++ _ = _
            rw [canonList_append_row]
            show canonList acc.store ++ [normalizeL (normalizeL s)] ++ _ = _
            simp [List.append_assoc]

/-! ## Claim C1 -/

theorem map_eq_self_of_forall {α : Type} (f : α → α) :
    ∀ (l : List α), (∀ c ∈ l, f c = c) → l.map f = l := by
  intro l
  induction l with
  | nil => intro _; rfl
  | cons a t ih =>
    intro h
    simp only [List.map_cons]
    rw [h a (List.mem_cons_self a t), ih (fun c hc => h c (List.mem_cons_of_mem a hc))]

/-- Side condition under which one import preserves the store invariant:
the canonical identifiers of the rows this file will append (those absent
from the store) are pairwise distinct and are fixed points of
normalization. -/
def okImport (store : List SRow) (rows : List CandRow) : Bool :=
  decide (newIds (buildExisting store) rows).Nodup &&
    (newIds (buildExisting store) rows).all fun c => decide (normalizeL c = c)

theorem import_single_preserves_nodup (S : List SRow) (rows : List CandRow)
    (now : List Char) (hnd : (canonList S).Nodup) (hok : okImport S rows = true) :
    (canonList ((import_simulator_file S rows now).store)).Nodup := by
  have hshape := canonList_import_loop (buildExisting S) now rows ⟨S, 0, 0⟩
  rw [okImport, Bool.and_eq_true, decide_eq_true_eq, List.all_eq_true] at hok
  have hstable : ∀ c ∈ newIds (buildExisting S) rows, normalizeL c = c := by
    intro c hc
    have := hok.2 c hc
    exact of_decide_eq_true this
  rw [import_simulator_file, hshape,
    map_eq_self_of_forall normalizeL _ hstable, List.nodup_append]
  refine ⟨hnd, hok.1, ?_⟩
  intro a haS haNew
  obtain ⟨hane, hanone⟩ := newIds_mem haNew
  have hbg := buildExisting_get S a
  rw [hanone] at hbg
  cases hlm : lastMatchFrom 2 S a with
  | some k => rw [hlm] at hbg; exact Option.noConfusion hbg
  | none => exact lastMatchFrom_none_not_mem hane 2 hlm haS

/-- Applying a sequence of imports, each with its own `now` string. -/
def applyImports : List SRow → List (List CandRow × List Char) → List SRow
  | S, [] => S
  | S, (rows, nowStr) :: rest =>
    applyImports (import_simulator_file S rows nowStr).store rest

/-- The per-import side condition, checked against the store each file is
actually applied to. -/
def okSeq : List SRow → List (List CandRow × List Char) → Bool
  | _, [] => true
  | S, (rows, nowStr) :: rest =>
    okImport S rows && okSeq (import_simulator_file S rows nowStr).store rest

/-- Claim C1 (counterexample): the store invariant is **not** preserved by
`import_simulator_file`.  `existing_serials` is built once before the loop
and never extended by appends, so (i) a single file holding rows `"abc"`
and `"ABC"` (equal canonical forms) appends two rows for canonical
`"ABC"`; and (ii) because the sheet stores the canonical form but lookup
keys re-normalize it, importing a file with row `"a(b1)(c2)"` twice
appends two identical `"A(B1)"` rows (both normalizing to `"A"`) instead
of updating. -/
theorem import_store_invariant_counterexample :
    (canonList ([] : List SRow)).Nodup ∧
    ¬(canonList (applyImports []
        [([{ serial := some ("abc".data), pm := Option.none, isc := Option.none,
             voc := Option.none, ipm := Option.none, vpm := Option.none,
             date := PyDT.pynone, ttime := PyDT.pynone },
           { serial := some ("ABC".data), pm := Option.none, isc := Option.none,
             voc := Option.none, ipm := Option.none, vpm := Option.none,
             date := PyDT.pynone, ttime := PyDT.pynone }], "t1".data)])).Nodup ∧
    ¬(canonList (applyImports []
        [([{ serial := some ("a(b1)(c2)".data), pm := Option.none, isc := Option.none,
             voc := Option.none, ipm := Option.none, vpm := Option.none,
             date := PyDT.pynone, ttime := PyDT.pynone }], "t1".data),
         ([{ serial := some ("a(b1)(c2)".data), pm := Option.none, isc := Option.none,
             voc := Option.none, ipm := Option.none, vpm := Option.none,
             date := PyDT.pynone, ttime := PyDT.pynone }], "t2".data)])).Nodup := by
  refine ⟨by simp [canonList], ?_, ?_⟩
  · decide
  · decide

/-- Claim C1 (amended): for every sequence of imports applied to a store
whose rows have pairwise-distinct normalized identifiers, the invariant
is preserved provided each imported file's *new* canonical identifiers
(those absent from the store it is applied to) are pairwise distinct and
are fixed points of normalization.  Duplicates confined to
already-present identifiers are harmless (they update in place). -/
theorem import_sequence_preserves_invariant :
    ∀ (files : List (List CandRow × List Char)) (S : List SRow),
      (canonList S).Nodup → okSeq S files = true →
      (canonList (applyImports S files)).Nodup := by
  intro files
  induction files with
  | nil => intro S h _; exact h
  | cons f rest ih =>
    intro S h hok
    obtain ⟨rows, nowStr⟩ := f
    rw [okSeq, Bool.and_eq_true] at hok
    exact ih _ (import_single_preserves_nodup S rows nowStr h hok.1) hok.2

/-- Witness for the amended C1 theorem: importing a two-row file with
distinct stable identifiers into the empty store. -/
theorem import_sequence_preserves_invariant_witness :
    (canonList (applyImports []
      [([{ serial := some ("s1".data), pm := some 200, isc := Option.none,
           voc := Option.none, ipm := Option.none, vpm := Option.none,
           date := PyDT.pynone, ttime := PyDT.pynone },
         { serial := some ("s2".data), pm := some 210, isc := Option.none,
           voc := Option.none, ipm := Option.none, vpm := Option.none,
           date := PyDT.pynone, ttime := PyDT.pynone }], "t1".data)])).Nodup :=
  import_sequence_preserves_invariant
    [([{ serial := some ("s1".data), pm := some 200, isc := Option.none,
         voc := Option.none, ipm := Option.none, vpm := Option.none,
         date := PyDT.pynone, ttime := PyDT.pynone },
       { serial := some ("s2".data), pm := some 210, isc := Option.none,
         voc := Option.none, ipm := Option.none, vpm := Option.none,
         date := PyDT.pynone, ttime := PyDT.pynone }], "t1".data)] []
    (by simp [canonList]) (by decide)

/-! ## Claims C5 and C10: the update path -/

theorem updateAt_get_self {α : Type} (l : List α) (i : Nat) (f : α → α) (a : α)
    (h : l.get? i = some a) : (updateAt l i f).get? i = some (f a) := by
  induction l generalizing i with
  | nil => simp at h
  | cons b t ih =>
    cases i with
    | zero =>
      have hb : b = a := by simpa using h
      subst hb
      rfl
    | succ j =>
      have h' : t.get? j = some a := by simpa using h
      show (updateAt t j f).get? j = some (f a)
      exact ih j h'

theorem updateAt_get_ne {α : Type} (l : List α) (i : Nat) (f : α → α) (j : Nat)
    (h : j ≠ i) : (updateAt l i f).get? j = l.get? j := by
  induction l generalizing i j with
  | nil => rfl
  | cons b t ih =>
    cases i with
    | zero =>
      cases j with
      | zero => exact absurd rfl h
      | succ j' => rfl
    | succ i' =>
      cases j with
      | zero => rfl
      | succ j' =>
        show (updateAt t i' f).get? j' = t.get? j'
        exact ih i' j' (fun hc => h (by rw [hc]))

theorem import_single_update_eq (S : List SRow) (r : CandRow) (now s : List Char)
    (k : Nat) (hser : r.serial = some s) (hs : s ≠ []) (hc : normalizeL s ≠ [])
    (hk : dictGet (buildExisting S) (normalizeL s) = some k) :
    import_simulator_file S [r] now =
      { store := updateAt S (k - 2) (updateFn r now), imported := 0, updated := 1 } := by
  rw [show import_simulator_file S [r] now =
    importStep (buildExisting S) now ⟨S, 0, 0⟩ r from rfl]
  rw [importStep_update hser hs hc hk]

/-- Store and candidate row shared by the C5/C10 theorems. -/
def storeRow0 : SRow :=
  { serialNo := "S1".data, pm := some 100, isc := some 9, voc := some 40,
    ipm := some 8, vpm := some 33, date := PyDT.str ("2024-01-01".data),
    ttime := PyDT.str ("09:00".data), firstImported := "t0".data,
    lastUpdated := "t0".data }

def candS1 : CandRow :=
  { serial := some ("s1".data), pm := some 210, isc := Option.none,
    voc := Option.none, ipm := Option.none, vpm := Option.none,
    date := PyDT.pynone, ttime := PyDT.pynone }

/-- Claim C5 (counterexample): the candidate's Isc is missing (`None`
after the NaN coercion), and after the update the stored Isc cell still
holds its pre-import value 9 — openpyxl's `ws.cell` skips the assignment
when the value is `None`, so the five electrical-value columns are *not*
overwritten unconditionally. -/
theorem import_update_none_keeps_old :
    candS1.isc = Option.none ∧ storeRow0.isc = some 9 ∧
    ((import_simulator_file [storeRow0] [candS1] ("t1".data)).store.get? 0).map
      (fun row => row.isc) = some (some 9) := by
  decide

/-- Claim C5 (amended): importing a candidate row whose canonical
identifier is already present updates the stored row in place regardless
of how the candidate's date/time fields compare to the stored ones (no
comparison hypothesis appears), counting one update and zero imports;
each electrical-value cell is overwritten with the candidate's value
whenever that value is present, while a missing (`None`/NaN-coerced)
value leaves the stored cell's old content in place. -/
theorem import_update_last_write_wins
    (S : List SRow) (r : CandRow) (now s : List Char) (k : Nat) (old : SRow)
    (hser : r.serial = some s) (hs : s ≠ []) (hc : normalizeL s ≠ [])
    (hk : dictGet (buildExisting S) (normalizeL s) = some k)
    (hold : S.get? (k - 2) = some old) :
    (import_simulator_file S [r] now).updated = 1 ∧
    (import_simulator_file S [r] now).imported = 0 ∧
    (import_simulator_file S [r] now).store.get? (k - 2) =
      some (updateFn r now old) ∧
    (∀ v : Int, r.pm = some v → (updateFn r now old).pm = some v) ∧
    (∀ v : Int, r.isc = some v → (updateFn r now old).isc = some v) ∧
    (∀ v : Int, r.voc = some v → (updateFn r now old).voc = some v) ∧
    (∀ v : Int, r.ipm = some v → (updateFn r now old).ipm = some v) ∧
    (∀ v : Int, r.vpm = some v → (updateFn r now old).vpm = some v) ∧
    (r.pm = Option.none → (updateFn r now old).pm = old.pm) ∧
    (r.isc = Option.none → (updateFn r now old).isc = old.isc) ∧
    (r.voc = Option.none → (updateFn r now old).voc = old.voc) ∧
    (r.ipm = Option.none → (updateFn r now old).ipm = old.ipm) ∧
    (r.vpm = Option.none → (updateFn r now old).vpm = old.vpm) := by
  rw [import_single_update_eq S r now s k hser hs hc hk]
  refine ⟨rfl, rfl, updateAt_get_self S (k - 2) _ old hold,
    fun v hv => by simp [updateFn, writeCell, hv],
    fun v hv => by simp [updateFn, writeCell, hv],
    fun v hv => by simp [updateFn, writeCell, hv],
    fun v hv => by simp [updateFn, writeCell, hv],
    fun v hv => by simp [updateFn, writeCell, hv],
    fun h => by simp [updateFn, writeCell, h],
    fun h => by simp [updateFn, writeCell, h],
    fun h => by simp [updateFn, writeCell, h],
    fun h => by simp [updateFn, writeCell, h],
    fun h => by simp [updateFn, writeCell, h]⟩

/-- Witness for C5: re-importing identifier "s1" against a store holding
"S1" counts as an update, not an import, and writes the candidate's
present Pm value 210. -/
theorem import_update_last_write_wins_witness :
    (import_simulator_file [storeRow0] [candS1] ("t1".data)).updated = 1 ∧
    (import_simulator_file [storeRow0] [candS1] ("t1".data)).imported = 0 ∧
    (updateFn candS1 ("t1".data) storeRow0).pm = some 210 := by
  obtain ⟨h1, h2, h3, h4, h5⟩ :=
    (import_update_last_write_wins [storeRow0] candS1 ("t1".data) ("s1".data) 2
      storeRow0 rfl (by decide) (by decide) (by decide) rfl)
  exact ⟨h1, h2, h4 210 rfl⟩

/-- A candidate row whose date cell is blank in a file that *has* a Date
column: pandas reads it as float NaN, which is truthy and not `None`. -/
def candNanDate : CandRow :=
  { serial := some ("s1".data), pm := Option.none, isc := Option.none,
    voc := Option.none, ipm := Option.none, vpm := Option.none,
    date := PyDT.nan, ttime := PyDT.pynone }

/-- Claim C10 (counterexample): updating from a row whose date cell is
blank (pandas NaN) and whose Isc is missing: the stored Date cell — which
held "2024-01-01" — is overwritten with NaN, because float NaN passes
`if date:` and is not `None`; while the stored Isc cell is *not*
rewritten (it keeps 9).  Both halves contradict the claimed frame
("the five electrical cells are always rewritten"; "Date/TTime left
unchanged whenever the incoming value is missing"). -/
theorem import_update_frame_counterexample :
    candNanDate.date = PyDT.nan ∧ candNanDate.isc = Option.none ∧
    storeRow0.date = PyDT.str ("2024-01-01".data) ∧
    ((import_simulator_file [storeRow0] [candNanDate] ("t1".data)).store.get? 0).map
      (fun row => (row.date, row.isc)) = some (PyDT.nan, some 9) := by
  decide

/-- Claim C10 (amended): an update touches only the electrical cells
whose incoming value is present, the "Date"/"TTime" cells when the
incoming value is truthy (a blank pandas cell is truthy NaN and *does*
overwrite), and "Last Updated" always; the identifier cell and "First
Imported" are never modified, a missing electrical value leaves the old
cell content, a falsy (`None`/empty-string) date or time leaves the
stored cell, and all other rows of the sheet are untouched.  Both update
paths (`import_simulator_file` and `import_simulator_file_validated`)
satisfy the frame. -/
theorem import_update_frame :
    (∀ (S : List SRow) (r : CandRow) (now s : List Char) (k : Nat) (old : SRow),
      r.serial = some s → s ≠ [] → normalizeL s ≠ [] →
      dictGet (buildExisting S) (normalizeL s) = some k →
      S.get? (k - 2) = some old →
      (import_simulator_file S [r] now).store.get? (k - 2) =
        some (updateFn r now old) ∧
      (∀ j, j ≠ k - 2 → (import_simulator_file S [r] now).store.get? j = S.get? j) ∧
      (updateFn r now old).serialNo = old.serialNo ∧
      (updateFn r now old).firstImported = old.firstImported ∧
      (updateFn r now old).lastUpdated = now ∧
      (∀ v : Int, r.pm = some v → (updateFn r now old).pm = some v) ∧
      (r.pm = Option.none → (updateFn r now old).pm = old.pm) ∧
      (∀ v : Int, r.isc = some v → (updateFn r now old).isc = some v) ∧
      (r.isc = Option.none → (updateFn r now old).isc = old.isc) ∧
      (∀ v : Int, r.voc = some v → (updateFn r now old).voc = some v) ∧
      (r.voc = Option.none → (updateFn r now old).voc = old.voc) ∧
      (∀ v : Int, r.ipm = some v → (updateFn r now old).ipm = some v) ∧
      (r.ipm = Option.none → (updateFn r now old).ipm = old.ipm) ∧
      (∀ v : Int, r.vpm = some v → (updateFn r now old).vpm = some v) ∧
      (r.vpm = Option.none → (updateFn r now old).vpm = old.vpm) ∧
      (truthyDT r.date = false → (updateFn r now old).date = old.date) ∧
      (truthyDT r.date = true → (updateFn r now old).date = r.date) ∧
      (truthyDT r.ttime = false → (updateFn r now old).ttime = old.ttime) ∧
      (truthyDT r.ttime = true → (updateFn r now old).ttime = r.ttime)) ∧
    (∀ (S : List SRow) (key : List Char) (rec : RecData) (now : List Char)
        (k : Nat) (old : SRow),
      dictGet (buildExisting S) key = some k →
      S.get? (k - 2) = some old →
      (import_simulator_file_validated S [(key, rec)] now).store.get? (k - 2) =
        some (updateValidatedFn rec now old) ∧
      (∀ j, j ≠ k - 2 →
        (import_simulator_file_validated S [(key, rec)] now).store.get? j =
          S.get? j) ∧
      (updateValidatedFn rec now old).serialNo = old.serialNo ∧
      (updateValidatedFn rec now old).firstImported = old.firstImported ∧
      (updateValidatedFn rec now old).lastUpdated = now ∧
      (∀ v : Int, rec.pm = some v → (updateValidatedFn rec now old).pm = some v) ∧
      (rec.pm = Option.none → (updateValidatedFn rec now old).pm = old.pm) ∧
      (truthyDT rec.date = false →
        (updateValidatedFn rec now old).date = old.date) ∧
      (truthyDT rec.ttime = false →
        (updateValidatedFn rec now old).ttime = old.ttime)) := by
  constructor
  · intro S r now s k old hser hs hc hk hold
    rw [import_single_update_eq S r now s k hser hs hc hk]
    refine ⟨updateAt_get_self S (k - 2) _ old hold,
      fun j hj => updateAt_get_ne S (k - 2) _ j hj,
      rfl, rfl, rfl,
      fun v hv => by simp [updateFn, writeCell, hv],
      fun h => by simp [updateFn, writeCell, h],
      fun v hv => by simp [updateFn, writeCell, hv],
      fun h => by simp [updateFn, writeCell, h],
      fun v hv => by simp [updateFn, writeCell, hv],
      fun h => by simp [updateFn, writeCell, h],
      fun v hv => by simp [updateFn, writeCell, hv],
      fun h => by simp [updateFn, writeCell, h],
      fun v hv => by simp [updateFn, writeCell, hv],
      fun h => by simp [updateFn, writeCell, h],
      fun h => by simp [updateFn, h],
      fun h => by simp [updateFn, h],
      fun h => by simp [updateFn, h],
      fun h => by simp [updateFn, h]⟩
  · intro S key rec now k old hk hold
    have hres : import_simulator_file_validated S [(key, rec)] now =
        { store := updateAt S (k - 2) (updateValidatedFn rec now), imported := 0,
          updated := 1 } := by
      rw [show import_simulator_file_validated S [(key, rec)] now =
        importValidatedStep (buildExisting S) now ⟨S, 0, 0⟩ (key, rec) from rfl]
      simp only [importValidatedStep, hk]
    rw [hres]
    refine ⟨updateAt_get_self S (k - 2) _ old hold,
      fun j hj => updateAt_get_ne S (k - 2) _ j hj, rfl, rfl, rfl,
      fun v hv => by simp [updateValidatedFn, writeCell, hv],
      fun h => by simp [updateValidatedFn, writeCell, h],
      fun h => by simp [updateValidatedFn, h],
      fun h => by simp [updateValidatedFn, h]⟩

/-- Witness for C10: the update leaves the identifier cell, the stored
Isc (the candidate's being missing), and the stored date/time (the
candidate's being falsy `None`) unchanged, and rows beyond the updated
one are untouched. -/
theorem import_update_frame_witness :
    (updateFn candS1 ("t1".data) storeRow0).serialNo = storeRow0.serialNo ∧
    (updateFn candS1 ("t1".data) storeRow0).isc = storeRow0.isc ∧
    (updateFn candS1 ("t1".data) storeRow0).date = storeRow0.date ∧
    (import_simulator_file [storeRow0] [candS1] ("t1".data)).store.get? 5 =
      ([storeRow0] : List SRow).get? 5 := by
  obtain ⟨h1, h2, h3, h4, h5, h6, h7, h8, h9, h10, h11, h12, h13, h14, h15,
      h16, h17, h18, h19⟩ :=
    import_update_frame.1 [storeRow0] candS1 ("t1".data) ("s1".data) 2 storeRow0
      rfl (by decide) (by decide) (by decide) rfl
  exact ⟨h3, h9 rfl, h16 rfl, h2 5 (by decide)⟩

/-! ## SerialDatabase object state

The mutable state of a `SerialDatabase` instance: the two caches with
their shared timestamps, and the two file monitors.  The environment
carries what the filesystem would currently report: the backing file's
modification time (`none` = missing), the outcome of reading its
`SerialNos` sheet, and the master file's modification time.  The
pandas/openpyxl read fallback pair is collapsed into one logical
full-table read with three outcomes.  Wall-clock time is a natural
number; Python's real-valued clock subtraction becomes truncated `Nat`
subtraction (the clock is assumed monotone). -/

inductive ReadOutcome where
  | ok (rows : List SRow)
  | noSheet
  | unreadable
deriving DecidableEq

structure Env where
  dbMtime : Option Nat
  dbRead : ReadOutcome
  masterMtime : Option Nat
deriving DecidableEq

structure DBState where
  serialCache : Option (List (List Char))
  serialCacheTs : Nat
  dataCache : List (List Char × RecData)
  dataCacheTs : Nat
  monitor : FileMonitorS
  masterMonitor : FileMonitorS
deriving DecidableEq

def cacheTtl : Nat := 180

def dataCacheTtl : Nat := 60

def dataCacheMaxSize : Nat := 1000

/-- The set the existence cache is rebuilt from: every stored
identifier cell that is truthy and normalizes to a nonempty string
(represented as a list; only membership is ever queried). -/
def nonEmptyCanonList (rows : List SRow) : List (List Char) :=
  rows.filterMap fun r =>
    if r.serialNo ≠ [] ∧ normalizeL r.serialNo ≠ [] then some (normalizeL r.serialNo)
    else Option.none

/-- `_refresh_serial_cache` (lines 211-259). -/
def refreshSerialCache (st : DBState) (env : Env) (now : Nat) : DBState :=
  let mc := st.monitor.hasChanged env.dbMtime
  let st1 :=
    if mc.2 then
      { st with monitor := mc.1, serialCache := Option.none, serialCacheTs := 0 }
    else { st with monitor := mc.1 }
  if st1.serialCache.isSome ∧ now - st1.serialCacheTs < cacheTtl then st1
  else if env.dbMtime = Option.none then
    { st1 with serialCache := some [], serialCacheTs := now }
  else
    match env.dbRead with
    | ReadOutcome.ok rows =>
      { st1 with serialCache := some (nonEmptyCanonList rows), serialCacheTs := now }
    | ReadOutcome.noSheet =>
      { st1 with serialCache := some [], serialCacheTs := now }
    | ReadOutcome.unreadable =>
      { st1 with serialCache := some [], serialCacheTs := now }

/-- `validate_serial` (lines 261-284). -/
def validate_serial (st : DBState) (env : Env) (now : Nat) (serial : List Char) :
    Bool × DBState :=
  if env.dbMtime = Option.none then (false, st)
  else if normalizeL serial = [] then (false, st)
  else
    let st1 := refreshSerialCache st env now
    (decide (normalizeL serial ∈ st1.serialCache.getD []), st1)

/-- `invalidate_cache` (lines 286-295): clears both caches and
re-baselines both monitors from the files' current modification times.
Every field of the object state is overwritten. -/
def invalidate_cache (st : DBState) (env : Env) : DBState :=
  let _ := st
  { serialCache := Option.none, serialCacheTs := 0, dataCache := [], dataCacheTs := 0,
    monitor := FileMonitorS.reset env.dbMtime,
    masterMonitor := FileMonitorS.reset env.masterMtime }

def recOfRow (r : SRow) : RecData :=
  { pm := r.pm, isc := r.isc, voc := r.voc, ipm := r.ipm, vpm := r.vpm,
    date := r.date, ttime := r.ttime }

/-- The two monitor checks opening `_refresh_data_cache` (lines 304-318):
a change on either file empties the detail cache. -/
def refreshMonitors (st : DBState) (env : Env) : DBState :=
  let mc := st.monitor.hasChanged env.dbMtime
  let st1 :=
    if mc.2 then { st with monitor := mc.1, dataCache := [], dataCacheTs := 0 }
    else { st with monitor := mc.1 }
  let mm := st1.masterMonitor.hasChanged env.masterMtime
  if mm.2 then { st1 with masterMonitor := mm.1, dataCache := [], dataCacheTs := 0 }
  else { st1 with masterMonitor := mm.1 }

/-- The size pre-clear of `_refresh_data_cache` (lines 330-333). -/
def preClear (st2 : DBState) : DBState :=
  if dataCacheMaxSize < st2.dataCache.length then { st2 with dataCache := [] }
  else st2

/-- The read-and-fill phase of `_refresh_data_cache` (lines 335-411),
returning 1 when a full-table read was attempted. -/
def readIntoCache (st3 : DBState) (env : Env) (now : Nat)
    (required : List (List Char)) : DBState × Nat :=
  if env.dbMtime = Option.none then
    ({ st3 with dataCache := [], dataCacheTs := now }, 0)
  else
    match env.dbRead with
    | ReadOutcome.ok rows =>
      let reqSet := ((required.filter fun s => s ≠ []).map normalizeL).filter
        fun c => c ≠ []
      let matching := rows.filter fun r =>
        normalizeL r.serialNo ≠ [] ∧ normalizeL r.serialNo ∈ reqSet
      let evict :=
        if dataCacheMaxSize ≤ st3.dataCache.length + matching.length then
          st3.dataCache.drop
            (st3.dataCache.length + matching.length - dataCacheMaxSize + 100)
        else st3.dataCache
      let newCache := matching.foldl
        (fun d r => dictSet d (normalizeL r.serialNo) (recOfRow r)) evict
      ({ st3 with dataCache := newCache, dataCacheTs := now }, 1)
    | ReadOutcome.noSheet =>
      ({ st3 with dataCacheTs := now }, 1)
    | ReadOutcome.unreadable =>
      ({ st3 with dataCache := [], dataCacheTs := now }, 1)

/-- `_refresh_data_cache` (lines 297-412), instrumented with the number
of full-table read attempts it performs (0 or 1). -/
def refreshDataCache (st : DBState) (env : Env) (now : Nat)
    (required : List (List Char)) : DBState × Nat :=
  let st2 := refreshMonitors st env
  if st2.dataCache ≠ [] ∧ now - st2.dataCacheTs < dataCacheTtl then (st2, 0)
  else if required = [] then (st2, 0)
  else readIntoCache (preClear st2) env now required

/-! ## Fallback synthesizer (`_generate_theoretical_data`, lines 112-165)

The SHA-1 seed and the `random.Random` draws are abstracted into a
deterministic executable function of the canonical serial (`theoHash`),
which is all the claims depend on: the five electrical values are a pure
function of the canonical identifier, while the Date/TTime fields are
stamped from the call-time clock (`now.date().isoformat()` and
`now.time().strftime`), modelled as rendered day and second-of-day
numbers. -/

def theoHash (c : List Char) : Nat :=
  c.foldl (fun a ch => (a * 131 + ch.toNat) % 1000003) 7

def dateStrOf (now : Nat) : List Char := (toString (now / 86400)).data

def timeStrOf (now : Nat) : List Char := (toString (now % 86400)).data

def genTheoretical (now : Nat) (serial : List Char) : Option RecData :=
  if normalizeL serial = [] then Option.none
  else
    let h := theoHash (normalizeL serial)
    some { pm := some ((350 + h % 100 : Nat) : Int),
           isc := some ((8 + h % 4 : Nat) : Int),
           voc := some ((38 + h % 12 : Nat) : Int),
           ipm := some ((8 + h % 4 : Nat) : Int),
           vpm := some ((30 + h % 8 : Nat) : Int),
           date := PyDT.str (dateStrOf now), ttime := PyDT.str (timeStrOf now) }

/-- `get_serial_data` (lines 414-481). -/
def get_serial_data (st : DBState) (env : Env) (now : Nat) (serial : List Char) :
    Option RecData × DBState :=
  if normalizeL serial = [] then (Option.none, st)
  else
    let st1 := (refreshDataCache st env now [normalizeL serial]).1
    match dictGet st1.dataCache (normalizeL serial) with
    | some data => (some data, st1)
    | Option.none =>
      if env.dbMtime = Option.none then (genTheoretical now serial, st1)
      else
        match env.dbRead with
        | ReadOutcome.ok rows =>
          match rows.find? (fun r => decide (r.serialNo ≠ []) &&
              decide (normalizeL r.serialNo ≠ []) &&
              decide (normalizeL r.serialNo = normalizeL serial)) with
          | some row =>
            let evict :=
              if dataCacheMaxSize ≤ st1.dataCache.length then st1.dataCache.drop 200
              else st1.dataCache
            (some (recOfRow row),
              { st1 with dataCache := dictSet evict (normalizeL serial) (recOfRow row) })
          | Option.none => (genTheoretical now serial, st1)
        | ReadOutcome.noSheet => (genTheoretical now serial, st1)
        | ReadOutcome.unreadable => (genTheoretical now serial, st1)

/-- First-occurrence deduplication, determinizing the Python set
`{normalize_serial(s) for s in serials if s}` (no claim below depends on
iteration order). -/
def dedupKeepFirst (l : List (List Char)) : List (List Char) :=
  l.foldl (fun acc a => if a ∈ acc then acc else acc ++ [a]) []

/-- `get_serial_data_batch` (lines 483-617), instrumented with the total
number of full-table read attempts. -/
def get_serial_data_batch (st : DBState) (env : Env) (now : Nat)
    (serials : List (List Char)) : List (List Char × RecData) × DBState × Nat :=
  let norm := dedupKeepFirst
    (((serials.filter fun s => s ≠ []).map normalizeL).filter fun c => c ≠ [])
  if norm = [] then ([], st, 0)
  else
    let result0 := norm.filterMap fun c => (dictGet st.dataCache c).map fun d => (c, d)
    let misses0 := norm.filter fun c => (dictGet st.dataCache c).isNone
    let rc := if misses0 ≠ [] then refreshDataCache st env now misses0 else (st, 0)
    let st1 := rc.1
    let result1 := result0 ++
      (misses0.filterMap fun c => (dictGet st1.dataCache c).map fun d => (c, d))
    let misses1 := misses0.filter fun c => (dictGet st1.dataCache c).isNone
    if misses1 = [] then (result1, st1, rc.2)
    else if env.dbMtime = Option.none then
      (result1 ++ (misses1.filterMap fun c => (genTheoretical now c).map fun d => (c, d)),
        st1, rc.2)
    else
      match env.dbRead with
      | ReadOutcome.ok rows =>
        let matching := rows.filter fun r =>
          normalizeL r.serialNo ≠ [] ∧ normalizeL r.serialNo ∈ misses1
        let evict :=
          if dataCacheMaxSize ≤ st1.dataCache.length + matching.length then
            st1.dataCache.drop
              (st1.dataCache.length + matching.length - dataCacheMaxSize + 100)
          else st1.dataCache
        let newCache := matching.foldl
          (fun d r => dictSet d (normalizeL r.serialNo) (recOfRow r)) evict
        let found := matching.map fun r => (normalizeL r.serialNo, recOfRow r)
        let still := misses1.filter fun c => c ∉ found.map Prod.fst
        (result1 ++ found ++
          (still.filterMap fun c => (genTheoretical now c).map fun d => (c, d)),
          { st1 with dataCache := newCache }, rc.2 + 1)
      | ReadOutcome.noSheet =>
        (result1 ++ (misses1.filterMap fun c => (genTheoretical now c).map fun d => (c, d)),
          st1, rc.2 + 1)
      | ReadOutcome.unreadable =>
        (result1 ++ (misses1.filterMap fun c => (genTheoretical now c).map fun d => (c, d)),
          st1, rc.2 + 1)

/-- The database-level wrapper of `import_simulator_file` (lines 812-830):
the workbook is saved, and when at least one row was imported or updated
the master sheet is rewritten, the source file moved, and
`invalidate_cache` called.  `envAfter` is the filesystem state right
after the save (new mtimes, file content equal to the returned store). -/
def importFileDB (st : DBState) (S : List SRow) (rows : List CandRow)
    (nowStr : List Char) (envAfter : Env) : DBState × ImportRes :=
  let res := import_simulator_file S rows nowStr
  if 0 < res.imported ∨ 0 < res.updated then (invalidate_cache st envAfter, res)
  else (st, res)

/-! ## Claim C7 -/

/-- Claim C7 (counterexample): a fresh, nonempty existence cache is served
without touching the backing file, so while the file exists but is
unreadable, `validate_serial("X")` returns `true` (the claim demands
`false`) and the cache stays nonempty. -/
theorem validate_serial_unreadable_counterexample :
    (validate_serial
      { serialCache := some [['X']], serialCacheTs := 100, dataCache := [],
        dataCacheTs := 0, monitor := ⟨some 5, 0⟩,
        masterMonitor := ⟨Option.none, 0⟩ }
      { dbMtime := some 5, dbRead := ReadOutcome.unreadable,
        masterMtime := Option.none }
      101 ['X']).1 = true := by
  decide

theorem refreshSerialCache_read_failure (st : DBState) (env : Env) (now t : Nat)
    (hmt : env.dbMtime = some t)
    (hread : env.dbRead = ReadOutcome.unreadable ∨ env.dbRead = ReadOutcome.noSheet)
    (hstale : st.serialCache = Option.none ∨ cacheTtl ≤ now - st.serialCacheTs) :
    (refreshSerialCache st env now).serialCache = some [] := by
  simp only [refreshSerialCache]
  by_cases hmc : (st.monitor.hasChanged env.dbMtime).2 = true
  · rw [if_pos hmc]
    rw [if_neg (by simp)]
    rw [if_neg (by rw [hmt]; simp)]
    rcases hread with h | h <;> rw [h]
  · rw [if_neg hmc]
    have hvalid : ¬(({ st with monitor := (st.monitor.hasChanged env.dbMtime).1
        }.serialCache.isSome = true) ∧
        now - { st with monitor := (st.monitor.hasChanged env.dbMtime).1
          }.serialCacheTs < cacheTtl) := by
      rcases hstale with h | h
      · simp [h]
      · intro hcon
        simp only [] at hcon
        omega
    rw [if_neg hvalid]
    rw [if_neg (by rw [hmt]; simp)]
    rcases hread with h | h <;> rw [h]

/-- Claim C7 (amended): when the backing file is missing, `is_known`
returns `false` immediately and without raising, leaving the cache
untouched; when the file exists but its table cannot be read (corrupt
sheet or read error) and a refresh actually runs (cache absent or older
than its TTL), the existence cache becomes the empty set and `is_known`
returns `false`.  A still-fresh cached set, however, is served without
touching the unreadable file (see the counterexample). -/
theorem validate_serial_degrades_gracefully :
    (∀ (st : DBState) (env : Env) (now : Nat) (serial : List Char),
      env.dbMtime = Option.none → validate_serial st env now serial = (false, st)) ∧
    (∀ (st : DBState) (env : Env) (now t : Nat) (serial : List Char),
      env.dbMtime = some t →
      (env.dbRead = ReadOutcome.unreadable ∨ env.dbRead = ReadOutcome.noSheet) →
      (st.serialCache = Option.none ∨ cacheTtl ≤ now - st.serialCacheTs) →
      (validate_serial st env now serial).1 = false ∧
      (normalizeL serial ≠ [] →
        (validate_serial st env now serial).2.serialCache = some [])) := by
  constructor
  · intro st env now serial h
    rw [validate_serial, if_pos h]
  · intro st env now t serial hmt hread hstale
    by_cases hc : normalizeL serial = []
    · rw [validate_serial, if_neg (by rw [hmt]; simp), if_pos hc]
      exact ⟨rfl, fun hcon => absurd hc hcon⟩
    · have hcache := refreshSerialCache_read_failure st env now t hmt hread hstale
      rw [validate_serial, if_neg (by rw [hmt]; simp), if_neg hc]
      constructor
      · show decide (normalizeL serial ∈
          (refreshSerialCache st env now).serialCache.getD []) = false
        rw [hcache]
        simp
      · intro _
        show (refreshSerialCache st env now).serialCache = some []
        exact hcache

/-- Witness for the amended C7 theorem: a stale cache plus an unreadable
file yields `false` and an empty cache. -/
theorem validate_serial_degrades_gracefully_witness :
    (validate_serial
      { serialCache := some [['X']], serialCacheTs := 0, dataCache := [],
        dataCacheTs := 0, monitor := ⟨some 5, 0⟩,
        masterMonitor := ⟨Option.none, 0⟩ }
      { dbMtime := some 5, dbRead := ReadOutcome.unreadable,
        masterMtime := Option.none }
      500 ['X']).1 = false :=
  (validate_serial_degrades_gracefully.2
    { serialCache := some [['X']], serialCacheTs := 0, dataCache := [],
      dataCacheTs := 0, monitor := ⟨some 5, 0⟩,
      masterMonitor := ⟨Option.none, 0⟩ }
    { dbMtime := some 5, dbRead := ReadOutcome.unreadable,
      masterMtime := Option.none }
    500 5 ['X'] rfl (Or.inl rfl) (Or.inr (by decide))).1

/-! ## Claim C9 -/

theorem readIntoCache_scans_le_one (st3 : DBState) (env : Env) (now : Nat)
    (req : List (List Char)) : (readIntoCache st3 env now req).2 ≤ 1 := by
  rw [readIntoCache]
  split
  · simp
  · cases env.dbRead <;> simp

theorem refreshDataCache_scans_le_one (st : DBState) (env : Env) (now : Nat)
    (req : List (List Char)) : (refreshDataCache st env now req).2 ≤ 1 := by
  rw [refreshDataCache]
  split
  · simp
  · split
    · simp
    · exact readIntoCache_scans_le_one _ _ _ _

/-- Claim C9 (counterexample): with a cold detail cache and an identifier
absent from the store, one `get_serial_data_batch` call performs **two**
full-table read attempts — one inside `_refresh_data_cache`, then the
batch's own direct read — refuting the at-most-one-scan claim. -/
theorem get_serial_data_batch_two_scans :
    (get_serial_data_batch
      { serialCache := Option.none, serialCacheTs := 0, dataCache := [],
        dataCacheTs := 0, monitor := ⟨some 5, 0⟩,
        masterMonitor := ⟨Option.none, 0⟩ }
      { dbMtime := some 5, dbRead := ReadOutcome.ok [],
        masterMtime := Option.none }
      0 [['X']]).2.2 = 2 ∧
    ¬((get_serial_data_batch
      { serialCache := Option.none, serialCacheTs := 0, dataCache := [],
        dataCacheTs := 0, monitor := ⟨some 5, 0⟩,
        masterMonitor := ⟨Option.none, 0⟩ }
      { dbMtime := some 5, dbRead := ReadOutcome.ok [],
        masterMtime := Option.none }
      0 [['X']]).2.2 ≤ 1) := by
  constructor
  · decide
  · decide

/-- Claim C9 (amended): one `get_serial_data_batch` call performs at most
**two** full-table read attempts regardless of the batch size N and of how
many identifiers miss the cache: at most one inside the lazy cache
refresh, and at most one direct batch read for identifiers the refresh
did not resolve. -/
theorem get_serial_data_batch_scan_bound (st : DBState) (env : Env) (now : Nat)
    (serials : List (List Char)) :
    (get_serial_data_batch st env now serials).2.2 ≤ 2 := by
  have hrc : ∀ ms : List (List Char),
      (if ms ≠ [] then refreshDataCache st env now ms else (st, 0)).2 ≤ 1 := by
    intro ms
    split
    · exact refreshDataCache_scans_le_one st env now ms
    · simp
  simp only [get_serial_data_batch]
  repeat' split
  all_goals first
    | exact Nat.le_trans (hrc _) (by decide)
    | exact Nat.le_trans (Nat.add_le_add_right (hrc _) 1) (by decide)
    | exact Nat.le_trans (refreshDataCache_scans_le_one st env now _) (by decide)
    | exact Nat.le_trans
        (Nat.add_le_add_right (refreshDataCache_scans_le_one st env now _) 1)
        (by decide)
    | simp

/-! ## Claim C6 -/

theorem dictGet_eq_none_iff {β : Type} (d : List (List Char × β)) (c : List Char) :
    dictGet d c = Option.none ↔ ∀ p ∈ d, p.1 ≠ c := by
  induction d with
  | nil => simp [dictGet]
  | cons p rest ih =>
    by_cases h : p.1 = c
    · constructor
      · intro hcon
        rw [dictGet, if_pos h] at hcon
        exact Option.noConfusion hcon
      · intro hall
        exact absurd h (hall p (List.mem_cons_self p rest))
    · rw [dictGet, if_neg h]
      constructor
      · intro hn q hq
        rcases List.mem_cons.mp hq with rfl | hq2
        · exact h
        · exact (ih.mp hn) q hq2
      · intro hall
        exact ih.mpr fun q hq => hall q (List.mem_cons_of_mem p hq)

theorem dictGet_drop_of_none {β : Type} (d : List (List Char × β)) (c : List Char)
    (n : Nat) (h : dictGet d c = Option.none) :
    dictGet (d.drop n) c = Option.none := by
  rw [dictGet_eq_none_iff] at h ⊢
  intro p hp
  exact h p (List.mem_of_mem_drop hp)

theorem dictGet_foldl_dictSet_of_none {β : Type} (key : SRow → List Char)
    (v : SRow → β) (c : List Char) :
    ∀ (l : List SRow) (d : List (List Char × β)),
      (∀ r ∈ l, key r ≠ c) → dictGet d c = Option.none →
      dictGet (l.foldl (fun d r => dictSet d (key r) (v r)) d) c = Option.none := by
  intro l
  induction l with
  | nil => intro d _ hd; exact hd
  | cons r rest ih =>
    intro d hkeys hd
    show dictGet (rest.foldl (fun d r => dictSet d (key r) (v r))
      (dictSet d (key r) (v r))) c = Option.none
    refine ih (dictSet d (key r) (v r))
      (fun r' hr' => hkeys r' (List.mem_cons_of_mem r hr')) ?_
    rw [dictGet_dictSet_ne d (key r) c (v r)
      (fun hc => hkeys r (List.mem_cons_self r rest) (hc ▸ rfl))]
    exact hd

theorem refreshMonitors_dataCache_none (st : DBState) (env : Env) (c : List Char)
    (hnone : dictGet st.dataCache c = Option.none) :
    dictGet (refreshMonitors st env).dataCache c = Option.none := by
  simp only [refreshMonitors]
  repeat' split
  all_goals first
    | exact hnone
    | simp [dictGet]

theorem preClear_dataCache_none (st2 : DBState) (c : List Char)
    (hnone : dictGet st2.dataCache c = Option.none) :
    dictGet (preClear st2).dataCache c = Option.none := by
  rw [preClear]
  split
  · simp [dictGet]
  · exact hnone

theorem readIntoCache_not_added (st3 : DBState) (env : Env) (now : Nat)
    (req : List (List Char)) (c : List Char)
    (hnone : dictGet st3.dataCache c = Option.none)
    (hrows : ∀ rows, env.dbRead = ReadOutcome.ok rows →
      ∀ row ∈ rows, normalizeL row.serialNo ≠ c) :
    dictGet (readIntoCache st3 env now req).1.dataCache c = Option.none := by
  rw [readIntoCache]
  split
  · simp [dictGet]
  · cases hread : env.dbRead with
    | ok rows =>
      show dictGet (List.foldl _ _ _) c = Option.none
      refine dictGet_foldl_dictSet_of_none _ recOfRow c _ _ ?_ ?_
      · intro r hr
        exact hrows rows hread r (List.mem_of_mem_filter hr)
      · split
        · exact dictGet_drop_of_none _ c _ hnone
        · exact hnone
    | noSheet => exact hnone
    | unreadable => simp [dictGet]

theorem refreshDataCache_not_added (st : DBState) (env : Env) (now : Nat)
    (req : List (List Char)) (c : List Char)
    (hnone : dictGet st.dataCache c = Option.none)
    (hrows : ∀ rows, env.dbRead = ReadOutcome.ok rows →
      ∀ row ∈ rows, normalizeL row.serialNo ≠ c) :
    dictGet (refreshDataCache st env now req).1.dataCache c = Option.none := by
  have hmon := refreshMonitors_dataCache_none st env c hnone
  rw [refreshDataCache]
  split
  · exact hmon
  · split
    · exact hmon
    · exact readIntoCache_not_added (preClear (refreshMonitors st env)) env now req c
        (preClear_dataCache_none _ c hmon) hrows

theorem genTheoretical_isSome {now : Nat} {serial : List Char}
    (hc : normalizeL serial ≠ []) : (genTheoretical now serial).isSome = true := by
  rw [genTheoretical, if_neg hc]
  rfl

theorem get_serial_data_unknown_eq (st : DBState) (env : Env) (now : Nat)
    (serial : List Char) (rows : List SRow) (t : Nat)
    (hc : normalizeL serial ≠ [])
    (hmt : env.dbMtime = some t) (hread : env.dbRead = ReadOutcome.ok rows)
    (habs : ∀ row ∈ rows, normalizeL row.serialNo ≠ normalizeL serial)
    (hcache : dictGet st.dataCache (normalizeL serial) = Option.none) :
    get_serial_data st env now serial =
      (genTheoretical now serial, (refreshDataCache st env now [normalizeL serial]).1) ∧
    dictGet (refreshDataCache st env now [normalizeL serial]).1.dataCache
      (normalizeL serial) = Option.none := by
  have hstill : dictGet (refreshDataCache st env now [normalizeL serial]).1.dataCache
      (normalizeL serial) = Option.none := by
    refine refreshDataCache_not_added st env now _ _ hcache ?_
    intro rows' hrows' row hrow
    rw [hrows'] at hread
    cases hread
    exact habs row hrow
  refine ⟨?_, hstill⟩
  have hfind : rows.find? (fun r => decide (r.serialNo ≠ []) &&
      decide (normalizeL r.serialNo ≠ []) &&
      decide (normalizeL r.serialNo = normalizeL serial)) = Option.none := by
    rw [List.find?_eq_none]
    intro r hr hcon
    simp only [Bool.and_eq_true, decide_eq_true_eq] at hcon
    exact absurd hcon.2 (habs r hr)
  rw [get_serial_data, if_neg hc]
  simp only [hstill, hfind, hmt, hread]
  split <;> rfl

/-- Claim C6 (counterexample): two successive `get_details` calls for the
same unknown identifier do **not** return identical values when the clock
has advanced between them — `_generate_theoretical_data` stamps
`datetime.now()` into the Date/TTime fields of every synthesized record.
(Both calls do return a record, and the electrical values agree.) -/
theorem get_serial_data_twice_differs :
    (get_serial_data
        { serialCache := Option.none, serialCacheTs := 0, dataCache := [],
          dataCacheTs := 0, monitor := ⟨Option.none, 0⟩,
          masterMonitor := ⟨Option.none, 0⟩ }
        { dbMtime := Option.none, dbRead := ReadOutcome.unreadable,
          masterMtime := Option.none } 0 ['X']).1 ≠
      (get_serial_data
        (get_serial_data
          { serialCache := Option.none, serialCacheTs := 0, dataCache := [],
            dataCacheTs := 0, monitor := ⟨Option.none, 0⟩,
            masterMonitor := ⟨Option.none, 0⟩ }
          { dbMtime := Option.none, dbRead := ReadOutcome.unreadable,
            masterMtime := Option.none } 0 ['X']).2
        { dbMtime := Option.none, dbRead := ReadOutcome.unreadable,
          masterMtime := Option.none } 1 ['X']).1 := by
  decide

/-- Claim C6 (amended): for an identifier with nonempty canonical form,
absent from the store and from the detail cache, `get_serial_data` never
returns `None` (and, being a total function, cannot raise): it returns
the synthesized record for the call-time clock.  A second immediate call
synthesizes again — the five electrical values are identical across the
two calls (deterministic per identifier), and the full records coincide
exactly when both calls observe the same clock second; the Date/TTime
fields are stamped per call. -/
theorem get_serial_data_unknown_synthesizes (st : DBState) (env : Env)
    (now now2 : Nat) (serial : List Char) (rows : List SRow) (t : Nat)
    (hc : normalizeL serial ≠ [])
    (hmt : env.dbMtime = some t) (hread : env.dbRead = ReadOutcome.ok rows)
    (habs : ∀ row ∈ rows, normalizeL row.serialNo ≠ normalizeL serial)
    (hcache : dictGet st.dataCache (normalizeL serial) = Option.none) :
    (get_serial_data st env now serial).1 = genTheoretical now serial ∧
    (get_serial_data st env now serial).1 ≠ Option.none ∧
    (get_serial_data (get_serial_data st env now serial).2 env now2 serial).1 =
      genTheoretical now2 serial ∧
    (genTheoretical now serial).map (fun d => (d.pm, d.isc, d.voc, d.ipm, d.vpm)) =
      (genTheoretical now2 serial).map (fun d => (d.pm, d.isc, d.voc, d.ipm, d.vpm)) := by
  obtain ⟨h1, hstill⟩ :=
    get_serial_data_unknown_eq st env now serial rows t hc hmt hread habs hcache
  have h2 := get_serial_data_unknown_eq
    (refreshDataCache st env now [normalizeL serial]).1 env now2 serial rows t
    hc hmt hread habs hstill
  refine ⟨by rw [h1], ?_, ?_, ?_⟩
  · rw [h1]
    show genTheoretical now serial ≠ Option.none
    intro hcon
    have hs := @genTheoretical_isSome now serial hc
    rw [hcon] at hs
    exact Bool.noConfusion hs
  · rw [h1]
    show (get_serial_data (refreshDataCache st env now [normalizeL serial]).1
      env now2 serial).1 = genTheoretical now2 serial
    rw [h2.1]
  · simp [genTheoretical, hc]

/-- Witness for the amended C6 theorem: looking up the unknown serial
"ZZ9" against a one-row store twice at the same instant. -/
theorem get_serial_data_unknown_synthesizes_witness :
    (get_serial_data
      { serialCache := Option.none, serialCacheTs := 0, dataCache := [],
        dataCacheTs := 0, monitor := ⟨some 5, 0⟩,
        masterMonitor := ⟨Option.none, 0⟩ }
      { dbMtime := some 5, dbRead := ReadOutcome.ok [storeRow0],
        masterMtime := Option.none } 7 ("ZZ9".data)).1 ≠ Option.none :=
  (get_serial_data_unknown_synthesizes
    { serialCache := Option.none, serialCacheTs := 0, dataCache := [],
      dataCacheTs := 0, monitor := ⟨some 5, 0⟩,
      masterMonitor := ⟨Option.none, 0⟩ }
    { dbMtime := some 5, dbRead := ReadOutcome.ok [storeRow0],
      masterMtime := Option.none }
    7 7 ("ZZ9".data) [storeRow0] 5 (by decide) rfl rfl (by decide) rfl).2.1

/-! ## Claim C2 -/

/-- The canonical identifiers of the rows an import call inserts or
updates (those that are neither skipped for a missing/empty identifier
nor for an empty canonical form). -/
def touchedIds : List CandRow → List (List Char)
  | [] => []
  | r :: rest =>
    match r.serial with
    | Option.none => touchedIds rest
    | some s =>
      if s = [] then touchedIds rest
      else if normalizeL s = [] then touchedIds rest
      else normalizeL s :: touchedIds rest

theorem touchedIds_ne_nil : ∀ {rows : List CandRow} {c : List Char},
    c ∈ touchedIds rows → c ≠ [] := by
  intro rows
  induction rows with
  | nil => intro c h; simp [touchedIds] at h
  | cons r rest ih =>
    intro c h
    cases hs : r.serial with
    | none =>
      simp only [touchedIds, hs] at h
      exact ih h
    | some s =>
      simp only [touchedIds, hs] at h
      by_cases he : s = []
      · rw [if_pos he] at h; exact ih h
      · rw [if_neg he] at h
        by_cases hcn : normalizeL s = []
        · rw [if_pos hcn] at h; exact ih h
        · rw [if_neg hcn] at h
          rcases List.mem_cons.mp h with rfl | h2
          · exact hcn
          · exact ih h2

theorem importStep_counts_le (exist : List (List Char × Nat)) (now : List Char)
    (acc : ImportRes) (r : CandRow) :
    acc.imported + acc.updated ≤
      (importStep exist now acc r).imported + (importStep exist now acc r).updated := by
  cases hs : r.serial with
  | none => rw [importStep_serial_none hs]
  | some s =>
    by_cases he : s = []
    · rw [importStep_serial_empty hs he]
    · by_cases hcn : normalizeL s = []
      · rw [importStep_canon_empty hs he hcn]
      · cases hk : dictGet exist (normalizeL s) with
        | some k =>
          rw [importStep_update hs he hcn hk]
          show acc.imported + acc.updated ≤ acc.imported + (acc.updated + 1)
          omega
        | none =>
          rw [importStep_append hs he hcn hk]
          show acc.imported + acc.updated ≤ acc.imported + 1 + acc.updated
          omega

theorem importLoop_counts_le (exist : List (List Char × Nat)) (now : List Char) :
    ∀ (rows : List CandRow) (acc : ImportRes),
      acc.imported + acc.updated ≤
        (rows.foldl (importStep exist now) acc).imported +
          (rows.foldl (importStep exist now) acc).updated := by
  intro rows
  induction rows with
  | nil => intro acc; exact Nat.le_refl _
  | cons r rest ih =>
    intro acc
    exact Nat.le_trans (importStep_counts_le exist now acc r)
      (ih (importStep exist now acc r))

theorem touched_counts_pos (exist : List (List Char × Nat)) (now : List Char) :
    ∀ (rows : List CandRow) (acc : ImportRes) (c : List Char),
      c ∈ touchedIds rows →
      0 < (rows.foldl (importStep exist now) acc).imported +
        (rows.foldl (importStep exist now) acc).updated := by
  intro rows
  induction rows with
  | nil => intro acc c h; simp [touchedIds] at h
  | cons r rest ih =>
    intro acc c h
    cases hs : r.serial with
    | none =>
      simp only [touchedIds, hs] at h
      exact ih (importStep exist now acc r) c h
    | some s =>
      simp only [touchedIds, hs] at h
      by_cases he : s = []
      · rw [if_pos he] at h
        exact ih (importStep exist now acc r) c h
      · rw [if_neg he] at h
        by_cases hcn : normalizeL s = []
        · rw [if_pos hcn] at h
          exact ih (importStep exist now acc r) c h
        · have hstep : 0 < (importStep exist now acc r).imported +
              (importStep exist now acc r).updated := by
            cases hk : dictGet exist (normalizeL s) with
            | some k =>
              rw [importStep_update hs he hcn hk]
              show 0 < acc.imported + (acc.updated + 1)
              omega
            | none =>
              rw [importStep_append hs he hcn hk]
              show 0 < acc.imported + 1 + acc.updated
              omega
          exact Nat.lt_of_lt_of_le hstep
            (importLoop_counts_le exist now rest (importStep exist now acc r))

/-- The identifier cells of the sheet, in order. -/
def serialCells (store : List SRow) : List (List Char) :=
  store.map fun r => r.serialNo

theorem serialCells_updateAt (st : List SRow) (i : Nat) (f : SRow → SRow)
    (hf : ∀ a, (f a).serialNo = a.serialNo) :
    serialCells (updateAt st i f) = serialCells st := by
  induction st generalizing i with
  | nil => rfl
  | cons a t ih =>
    cases i with
    | zero =>
      show serialCells (f a :: t) = serialCells (a :: t)
      simp [serialCells, hf a]
    | succ j =>
      show serialCells (a :: updateAt t j f) = serialCells (a :: t)
      simp only [serialCells, List.map_cons]
      rw [show (updateAt t j f).map (fun r => r.serialNo) =
        serialCells (updateAt t j f) from rfl, ih j]
      rfl

theorem serialCells_import_loop (exist : List (List Char × Nat)) (now : List Char) :
    ∀ (rows : List CandRow) (acc : ImportRes),
      serialCells ((rows.foldl (importStep exist now) acc).store) =
        serialCells acc.store ++ newIds exist rows := by
  intro rows
  induction rows with
  | nil => intro acc; simp [newIds]
  | cons r rest ih =>
    intro acc
    show serialCells ((rest.foldl (importStep exist now)
      (importStep exist now acc r)).store) = _
    rw [ih]
    cases hs : r.serial with
    | none =>
      rw [importStep_serial_none hs]
      simp only [newIds, hs]
    | some s =>
      by_cases he : s = []
      · rw [importStep_serial_empty hs he]
        simp only [newIds, hs]
        rw [if_pos he]
      · by_cases hcn : normalizeL s = []
        · rw [importStep_canon_empty hs he hcn]
          simp only [newIds, hs]
          rw [if_neg he, if_pos hcn]
        · cases hk : dictGet exist (normalizeL s) with
          | some k =>
            rw [importStep_update hs he hcn hk]
            simp only [newIds, hs]
            rw [if_neg he, if_neg hcn, hk]
            show serialCells (updateAt acc.store (k - 2) (updateFn r now)) ++ _ = _
            rw [serialCells_updateAt _ _ _ (updateFn_serialNo r now)]
          | none =>
            rw [importStep_append hs he hcn hk]
            simp only [newIds, hs]
            rw [if_neg he, if_neg hcn, hk]
            show serialCells (acc.store ++ [newRowOf (normalizeL s) r now]) ++ _ = _
            simp [serialCells, List.append_assoc, newRowOf]

theorem mem_nonEmptyCanonList {rows : List SRow} {c : List Char} :
    c ∈ nonEmptyCanonList rows ↔
      ∃ r ∈ rows, r.serialNo ≠ [] ∧ normalizeL r.serialNo ≠ [] ∧
        normalizeL r.serialNo = c := by
  simp only [nonEmptyCanonList, List.mem_filterMap]
  constructor
  · rintro ⟨r, hr, hf⟩
    by_cases hg : r.serialNo ≠ [] ∧ normalizeL r.serialNo ≠ []
    · rw [if_pos hg] at hf
      cases hf
      exact ⟨r, hr, hg.1, hg.2, rfl⟩
    · rw [if_neg hg] at hf
      exact Option.noConfusion hf
  · rintro ⟨r, hr, h1, h2, h3⟩
    exact ⟨r, hr, by rw [if_pos ⟨h1, h2⟩, h3]⟩

theorem touched_in_newIds (exist : List (List Char × Nat)) :
    ∀ {rows : List CandRow} {c : List Char}, c ∈ touchedIds rows →
      dictGet exist c = Option.none → c ∈ newIds exist rows := by
  intro rows
  induction rows with
  | nil => intro c h; simp [touchedIds] at h
  | cons r rest ih =>
    intro c h hk
    cases hs : r.serial with
    | none =>
      simp only [touchedIds, hs] at h
      simp only [newIds, hs]
      exact ih h hk
    | some s =>
      simp only [touchedIds, hs] at h
      simp only [newIds, hs]
      by_cases he : s = []
      · rw [if_pos he] at h ⊢
        exact ih h hk
      · rw [if_neg he] at h ⊢
        by_cases hcn : normalizeL s = []
        · rw [if_pos hcn] at h ⊢
          exact ih h hk
        · rw [if_neg hcn] at h ⊢
          rcases List.mem_cons.mp h with rfl | h2
          · rw [hk]
            exact List.mem_cons_self _ _
          · cases hk2 : dictGet exist (normalizeL s) with
            | some k => exact ih h2 hk
            | none => exact List.mem_cons_of_mem _ (ih h2 hk)

/-- Every touched canonical identifier (with a normalization-stable form)
is present in the rebuilt existence set after the import. -/
theorem touched_visible (S : List SRow) (rows : List CandRow) (nowStr : List Char)
    (c : List Char) (hc : c ∈ touchedIds rows) (hstable : normalizeL c = c) :
    c ∈ nonEmptyCanonList (import_simulator_file S rows nowStr).store := by
  have hcne : c ≠ [] := touchedIds_ne_nil hc
  have hcells := serialCells_import_loop (buildExisting S) nowStr rows ⟨S, 0, 0⟩
  rw [mem_nonEmptyCanonList]
  cases hk : dictGet (buildExisting S) c with
  | some k =>
    have hbg := buildExisting_get S c
    rw [hk] at hbg
    cases hlm : lastMatchFrom 2 S c with
    | none => rw [hlm] at hbg; exact Option.noConfusion hbg
    | some k' =>
      obtain ⟨_, _, row, hrow, hser, hcanon⟩ := lastMatchFrom_some_spec 2 k' hlm
      have hu : row.serialNo ∈ serialCells (import_simulator_file S rows nowStr).store := by
        rw [show (import_simulator_file S rows nowStr).store =
          (rows.foldl (importStep (buildExisting S) nowStr) ⟨S, 0, 0⟩).store from rfl,
          hcells]
        exact List.mem_append.mpr (Or.inl
          (List.mem_map.mpr ⟨row, List.get?_mem hrow, rfl⟩))
      obtain ⟨r', hr', hr'eq⟩ := List.mem_map.mp hu
      exact ⟨r', hr', hr'eq ▸ hser, hr'eq ▸ (hcanon ▸ hcne), hr'eq ▸ hcanon⟩
  | none =>
    have hmem := touched_in_newIds (buildExisting S) hc hk
    have hu : c ∈ serialCells (import_simulator_file S rows nowStr).store := by
      rw [show (import_simulator_file S rows nowStr).store =
        (rows.foldl (importStep (buildExisting S) nowStr) ⟨S, 0, 0⟩).store from rfl,
        hcells]
      exact List.mem_append.mpr (Or.inr hmem)
    obtain ⟨r', hr', hr'eq⟩ := List.mem_map.mp hu
    refine ⟨r', hr', hr'eq ▸ hcne, ?_, ?_⟩
    · rw [hr'eq, hstable]
      exact hcne
    · rw [hr'eq, hstable]

theorem hasChanged_reset (mt : Option Nat) :
    FileMonitorS.hasChanged (FileMonitorS.reset mt) mt = (FileMonitorS.reset mt, false) := by
  cases mt <;> simp [FileMonitorS.reset, FileMonitorS.hasChanged]

theorem refreshMonitors_after_invalidate (st : DBState) (env : Env) :
    refreshMonitors (invalidate_cache st env) env = invalidate_cache st env := by
  cases hd : env.dbMtime <;> cases hm : env.masterMtime <;>
    simp [refreshMonitors, invalidate_cache, FileMonitorS.reset,
      FileMonitorS.hasChanged, hd, hm]

theorem validate_after_invalidate (st : DBState) (env : Env) (now m : Nat)
    (store' : List SRow) (raw : List Char)
    (hmt : env.dbMtime = some m) (hread : env.dbRead = ReadOutcome.ok store')
    (hc : normalizeL raw ≠ [])
    (hmem : normalizeL raw ∈ nonEmptyCanonList store') :
    (validate_serial (invalidate_cache st env) env now raw).1 = true := by
  rw [validate_serial]
  rw [if_neg (by rw [hmt]; simp), if_neg hc]
  have hsc : (refreshSerialCache (invalidate_cache st env) env now).serialCache =
      some (nonEmptyCanonList store') := by
    simp [refreshSerialCache, invalidate_cache, FileMonitorS.reset,
      FileMonitorS.hasChanged, hmt, hread]
  show decide (normalizeL raw ∈
    (refreshSerialCache (invalidate_cache st env) env now).serialCache.getD []) = true
  rw [hsc]
  simpa using hmem

theorem filter_canon_singleton {c : List Char} {p : SRow → Bool}
    (hp : ∀ r, p r = true ↔ normalizeL r.serialNo = c) :
    ∀ (store' : List SRow), (canonList store').Nodup →
      ∀ (i : Nat) (row : SRow), store'.get? i = some row →
        normalizeL row.serialNo = c → store'.filter p = [row] := by
  intro store'
  induction store' with
  | nil => intro _ i row h; exact Option.noConfusion h
  | cons a rest ih =>
    intro hnd i row hget hcanon
    have hnd2 : normalizeL a.serialNo ∉ canonList rest ∧ (canonList rest).Nodup := by
      have := List.nodup_cons.mp (show (normalizeL a.serialNo :: canonList rest).Nodup by
        simpa [canonList] using hnd)
      exact this
    cases i with
    | zero =>
      have ha : a = row := by simpa using hget
      subst ha
      have hpa : p a = true := (hp a).mpr hcanon
      rw [List.filter_cons, if_pos hpa]
      have hrest : rest.filter p = [] := by
        rw [List.filter_eq_nil_iff]
        intro r hr hpr
        exact hnd2.1 (List.mem_map.mpr ⟨r, hr,
          ((hp r).mp hpr).trans hcanon.symm⟩)
      rw [hrest]
    | succ j =>
      have hget' : rest.get? j = some row := by simpa using hget
      have hmemr : normalizeL row.serialNo ∈ canonList rest :=
        List.mem_map.mpr ⟨row, List.get?_mem hget', rfl⟩
      have hpa : p a = false := by
        cases hpab : p a
        · rfl
        · exact absurd (show normalizeL a.serialNo ∈ canonList rest by
            rw [(hp a).mp hpab, ← hcanon]; exact hmemr) hnd2.1
      rw [List.filter_cons, if_neg (by rw [hpa]; exact Bool.false_ne_true)]
      exact ih hnd2.2 j row hget' hcanon

theorem get_after_invalidate (st : DBState) (env : Env) (now m : Nat)
    (store' : List SRow) (raw : List Char) (i : Nat) (row : SRow)
    (hmt : env.dbMtime = some m) (hread : env.dbRead = ReadOutcome.ok store')
    (hc : normalizeL raw ≠ [])
    (hstable : normalizeL (normalizeL raw) = normalizeL raw)
    (hnd : (canonList store').Nodup)
    (hrow : store'.get? i = some row)
    (hcanon : normalizeL row.serialNo = normalizeL raw) :
    (get_serial_data (invalidate_cache st env) env now raw).1 =
      some (recOfRow row) := by
  have hrefresh : refreshDataCache (invalidate_cache st env) env now [normalizeL raw] =
      ({ invalidate_cache st env with
          dataCache := [(normalizeL raw, recOfRow row)]
          dataCacheTs := now }, 1) := by
    rw [refreshDataCache, refreshMonitors_after_invalidate]
    rw [if_neg (by simp [invalidate_cache])]
    rw [if_neg (by simp)]
    rw [show preClear (invalidate_cache st env) = invalidate_cache st env from by
      simp [preClear, invalidate_cache, dataCacheMaxSize]]
    rw [readIntoCache]
    rw [if_neg (by rw [hmt]; simp)]
    simp only [hread]
    have hmatch : store'.filter (fun r => decide (normalizeL r.serialNo ≠ [] ∧
        normalizeL r.serialNo ∈
          ((([normalizeL raw].filter fun s => decide (s ≠ [])).map normalizeL).filter
            fun c => decide (c ≠ [])))) = [row] := by
      have hreq : ((([normalizeL raw].filter fun s => decide (s ≠ [])).map
          normalizeL).filter fun c => decide (c ≠ [])) = [normalizeL raw] := by
        simp [hc, hstable]
      rw [hreq]
      refine filter_canon_singleton ?_ store' hnd i row hrow hcanon
      intro r
      simp only [decide_eq_true_eq, List.mem_singleton]
      constructor
      · exact fun h => h.2
      · intro h
        exact ⟨by rw [h]; exact hc, h⟩
    rw [hmatch]
    simp [invalidate_cache, dataCacheMaxSize, dictSet, hcanon]
  rw [get_serial_data, if_neg hc]
  simp only [hrefresh]
  simp [dictGet]

/-- The all-empty object state before an import call. -/
def dbSt0 : DBState :=
  { serialCache := Option.none, serialCacheTs := 0, dataCache := [], dataCacheTs := 0,
    monitor := ⟨Option.none, 0⟩, masterMonitor := ⟨Option.none, 0⟩ }

/-- A simulator row whose identifier has a non-stable canonical form:
normalize turns it into a string that re-normalizes differently. -/
def candUnstable : CandRow :=
  { serial := some ("a(b1)(c2)".data), pm := some 200, isc := Option.none,
    voc := Option.none, ipm := Option.none, vpm := Option.none,
    date := PyDT.pynone, ttime := PyDT.pynone }

/-- The filesystem right after the bad import saved the workbook. -/
def envBadImport : Env :=
  { dbMtime := some 10,
    dbRead := ReadOutcome.ok (import_simulator_file [] [candUnstable] ("t1".data)).store,
    masterMtime := Option.none }

/-- Claim C2 (counterexample): an import of the single row with raw
identifier a(b1)(c2) reports one row imported and invalidates the caches,
yet immediately afterwards `validate_serial` on that very raw identifier
returns `false`: the appended cell holds the once-normalized form A(B1),
whose own canonical form A differs from the lookup key A(B1), so the
rebuilt existence set does not contain the imported identifier. -/
theorem import_visibility_counterexample :
    (importFileDB dbSt0 [] [candUnstable] ("t1".data) envBadImport).2.imported = 1 ∧
    (validate_serial (importFileDB dbSt0 [] [candUnstable] ("t1".data) envBadImport).1
      envBadImport 0 ("a(b1)(c2)".data)).1 = false := by
  decide

/-- Claim C2 (amended): for an import whose new canonical identifiers are
pairwise distinct and normalization-stable (`okImport`), applied to a store
satisfying the one-row-per-identifier invariant, every inserted or updated
identifier whose canonical form is itself stable is immediately visible:
the wrapper returns the fully invalidated state (both caches cleared, both
monitor baselines re-read), on that state `validate_serial` returns `true`
for the raw identifier, and `get_serial_data` returns exactly the merged
row's values. -/
theorem import_then_visible
    (st : DBState) (S : List SRow) (rows : List CandRow) (nowStr : List Char)
    (envAfter : Env) (now m : Nat) (raw : List Char)
    (hnd : (canonList S).Nodup)
    (hok : okImport S rows = true)
    (hc : normalizeL raw ≠ [])
    (hstable : normalizeL (normalizeL raw) = normalizeL raw)
    (htouched : normalizeL raw ∈ touchedIds rows)
    (hmt : envAfter.dbMtime = some m)
    (hread : envAfter.dbRead =
      ReadOutcome.ok (import_simulator_file S rows nowStr).store) :
    (importFileDB st S rows nowStr envAfter).1 = invalidate_cache st envAfter ∧
    (validate_serial (invalidate_cache st envAfter) envAfter now raw).1 = true ∧
    ∀ i row, (import_simulator_file S rows nowStr).store.get? i = some row →
      normalizeL row.serialNo = normalizeL raw →
      (get_serial_data (invalidate_cache st envAfter) envAfter now raw).1 =
        some (recOfRow row) := by
  have hpos : 0 < (import_simulator_file S rows nowStr).imported ∨
      0 < (import_simulator_file S rows nowStr).updated := by
    have hdef : import_simulator_file S rows nowStr =
        rows.foldl (importStep (buildExisting S) nowStr) ⟨S, 0, 0⟩ := rfl
    rw [hdef]
    have := touched_counts_pos (buildExisting S) nowStr rows ⟨S, 0, 0⟩
      (normalizeL raw) htouched
    omega
  have hmem : normalizeL raw ∈
      nonEmptyCanonList (import_simulator_file S rows nowStr).store :=
    touched_visible S rows nowStr (normalizeL raw) htouched hstable
  refine ⟨by rw [importFileDB, if_pos hpos],
    validate_after_invalidate st envAfter now m _ raw hmt hread hc hmem, ?_⟩
  intro i row hrow hcanon
  exact get_after_invalidate st envAfter now m _ raw i row hmt hread hc hstable
    (import_single_preserves_nodup S rows nowStr hnd hok) hrow hcanon

/-- A simulator row with a normalization-stable identifier. -/
def candGood : CandRow :=
  { serial := some ("s1".data), pm := some 200, isc := Option.none,
    voc := Option.none, ipm := Option.none, vpm := Option.none,
    date := PyDT.pynone, ttime := PyDT.pynone }

/-- The filesystem right after the good import saved the workbook. -/
def envGoodImport : Env :=
  { dbMtime := some 11,
    dbRead := ReadOutcome.ok (import_simulator_file [] [candGood] ("t1".data)).store,
    masterMtime := Option.none }

theorem import_then_visible_witness :
    (validate_serial (invalidate_cache dbSt0 envGoodImport) envGoodImport 0
      ("s1".data)).1 = true ∧
    (get_serial_data (invalidate_cache dbSt0 envGoodImport) envGoodImport 0
      ("s1".data)).1 =
      some (recOfRow (newRowOf (normalizeL ("s1".data)) candGood ("t1".data))) := by
  have h := import_then_visible dbSt0 [] [candGood] ("t1".data) envGoodImport 0 11
    ("s1".data) (by decide) (by decide) (by decide) (by decide) (by decide) rfl rfl
  exact ⟨h.2.1,
    h.2.2 0 (newRowOf (normalizeL ("s1".data)) candGood ("t1".data))
      (by decide) (by decide)⟩

end SolarPallet
